import Mathlib

/-!
# Verification of the quais HD-wallet subsystem

Shallow embedding of the HD-wallet code of this repository:
* `src/lib.esm/wallet/hdwallet.js` (`HDNodeWallet`, `HDNodeVoidWallet`)
* `src/src/wallet/quai-hdwallet.ts` (`QuaiHDWallet`, `WebSocketProvider`,
  `Shard`/`ShardData`/`toShard`)
* `src/src.ts/wallet/wallet.ts` (`Wallet.fromPhrase`)

Byte strings are `List Nat` (each element a byte value), character strings are
`List Char`.  Cryptographic primitives (HMAC-SHA512, SHA-256, RIPEMD-160,
secp256k1 operations) are external collaborators of the repository; they are
abstracted into a `Crypto` record of functions, and the collaborator contracts
the code relies on are explicit hypotheses.
-/

deriving instance DecidableEq for Except

namespace Quais

/-! ## Positional digit strings (shared by byte arrays and Base58) -/

/-- `natToDigitsAux b fuel n` computes the base-`b` digits of `n`,
most significant first, by structural recursion on `fuel` (so that the
kernel can evaluate it on large literals). -/
def natToDigitsAux (b : Nat) : Nat → Nat → List Nat
  | 0, _ => []
  | fuel + 1, n => if n = 0 then [] else natToDigitsAux b fuel (n / b) ++ [n % b]

/-- Base-`b` digits of `n`, most significant first; `0` maps to `[]`. -/
def natToDigits (b n : Nat) : List Nat := natToDigitsAux b (n + 1) n

/-- Value of a most-significant-first digit string in base `b`. -/
def digitsVal (b : Nat) (ds : List Nat) : Nat := ds.foldl (fun a d => a * b + d) 0

/-- No leading zero digit (empty strings qualify). -/
def noLeadZero : List Nat → Prop
  | [] => True
  | d :: _ => d ≠ 0

/-! ## Byte strings -/

/-- Every element is a byte value. -/
def isBytes (bs : List Nat) : Prop := ∀ x ∈ bs, x < 256

/-- `toBeArray`/`toBigInt` direction: minimal big-endian byte string of `n`. -/
def natToBytes (n : Nat) : List Nat := natToDigits 256 n

/-- `toBigInt` of a big-endian byte string. -/
def bytesToNat (bs : List Nat) : Nat := digitsVal 256 bs

/-- `zpad(n, k)`: `k`-byte big-endian encoding of `n` (zero-padded on the
left, as in the repository's `zpad` helper). -/
def natToBytesPad (n k : Nat) : List Nat :=
  List.replicate (k - (natToBytes n).length) 0 ++ natToBytes n

/-! ## Base58 (`encodeBase58`/`decodeBase58` of the repository's utils,
modelled from the spec: "Base58Check-encoded" extended keys; the utils module
itself is not under `src/`). -/

/-- The Base58 alphabet. -/
def b58Alphabet : List Char :=
  "123456789ABCDEFGHJKLMNPQRSTUVWXYZabcdefghijkmnopqrstuvwxyz".data

/-- Value of a Base58 character (`none` for a character outside the alphabet,
which `decodeBase58` rejects). -/
def b58Val (c : Char) : Option Nat := List.findIdx? (fun a => a = c) b58Alphabet

/-- Character for a Base58 digit. -/
def b58Char (d : Nat) : Char := b58Alphabet.getD d '1'

/-- Modelled from the spec: `encodeBase58` renders a big integer in
the Base58 alphabet, most significant digit first (`0` maps to `""`). -/
def encodeBase58 (n : Nat) : List Char := (natToDigits 58 n).map b58Char

/-- Modelled from the spec: `decodeBase58` folds the digit values of the
characters (`none` when a character is outside the alphabet). -/
def decodeBase58 (cs : List Char) : Option Nat := go 0 cs where
  go (acc : Nat) : List Char → Option Nat
    | [] => some acc
    | c :: cs =>
      match b58Val c with
      | none => none
      | some v => go (acc * 58 + v) cs

/-! ## Characters and path strings -/

/-- The `/` separator of derivation paths. -/
def slashChar : Char := '/'

/-- The apostrophe marking hardened path components. -/
def apoChar : Char := Char.ofNat 39

/-- JavaScript `s.split('/')` (an empty string yields one empty field). -/
def splitSlash : List Char → List (List Char)
  | [] => [[]]
  | c :: cs =>
    if c = slashChar then [] :: splitSlash cs
    else
      match splitSlash cs with
      | [] => [[c]]
      | f :: fs => (c :: f) :: fs

/-- JavaScript `fields.join('/')`. -/
def joinSlash (fields : List (List Char)) : List Char :=
  List.intercalate [slashChar] fields

/-- JavaScript `n.toString()` for a nonnegative integer. -/
def decChars (n : Nat) : List Char :=
  if n = 0 then ['0'] else (natToDigits 10 n).map (fun d => Char.ofNat (48 + d))

/-! ## Constants (`src/lib.esm/wallet/hdwallet.js` imports) -/

/-- The secp256k1 group order `N` from `constants`. -/
def N : Nat := 0xFFFFFFFFFFFFFFFFFFFFFFFFFFFFFFFEBAAEDCE6AF48A03BBFD25E8CD0364141

/-- Modelled from the spec: `HardenedBit` from `wallet/utils.js` (not under
`src/`); "`index` top bit set ⇔ hardened child". -/
def HardenedBit : Nat := 0x80000000

/-! ## Abstract cryptographic collaborators

The curve/hash layer (`computeHmac`, `sha256`, `ripemd160`, `SigningKey`,
`computeAddress`) lives outside `src/`; the spec treats it as the external
`ScalarField/CurveOps` collaborator.  It is abstracted as a record of
functions over byte strings. -/

structure Crypto where
  /-- `computeHmac("sha512", key, data)`. -/
  hmac512 : List Nat → List Nat → List Nat
  /-- `sha256(data)`. -/
  sha256 : List Nat → List Nat
  /-- `ripemd160(data)`. -/
  ripemd160 : List Nat → List Nat
  /-- `new SigningKey(priv).compressedPublicKey`. -/
  compressedPublicKey : List Nat → List Nat
  /-- `SigningKey.addPoints(tweak, point, true)`. -/
  addPoints : List Nat → List Nat → List Nat
  /-- `computeAddress(publicKey)`. -/
  computeAddress : List Nat → List Nat

/-- The SHA-256 collaborator returns 32-byte strings. -/
structure Crypto.Wf (c : Crypto) : Prop where
  sha256_bytes : ∀ x, isBytes (c.sha256 x)
  sha256_len : ∀ x, (c.sha256 x).length = 32

/-- The curve collaborator's contract consumed by HD derivation
(`§2.1 ScalarField/CurveOps`): tweaking a private key by `IL` modulo the
curve order corresponds to adding `IL·G` to its public point. -/
def Crypto.ECAddContract (c : Crypto) : Prop :=
  ∀ il pk : List Nat,
    c.compressedPublicKey (natToBytesPad ((bytesToNat il + bytesToNat pk) % N) 32) =
      c.addPoints il (c.compressedPublicKey pk)

/-! ## HD node data model (`HDNodeWallet` / `HDNodeVoidWallet`) -/

/-- A full HD node (`HDNodeWallet`): its address and public key are computed
from the signing key by `BaseWallet`, so only the private key is stored.
The `mnemonic` and `provider` fields play no role in the claims and are
omitted. -/
structure HDNodeWallet where
  privateKey : List Nat
  accountFingerprint : List Nat
  chainCode : List Nat
  path : Option (List Char)
  index : Nat
  depth : Nat
  /-- `coinType` is only ever assigned by `setCoinType()`; nodes returned by
  the constructors and by `deriveChild` leave it `undefined` (`none`). -/
  coinType : Option Nat := none
deriving DecidableEq

/-- A neutered HD node (`HDNodeVoidWallet`): address and public key are
stored by the constructor. -/
structure HDNodeVoidWallet where
  address : List Nat
  publicKey : List Nat
  accountFingerprint : List Nat
  chainCode : List Nat
  path : Option (List Char)
  index : Nat
  depth : Nat
deriving DecidableEq

/-- `this.#publicKey = signingKey.compressedPublicKey`. -/
def HDNodeWallet.publicKey (c : Crypto) (n : HDNodeWallet) : List Nat :=
  c.compressedPublicKey n.privateKey

/-- `BaseWallet` derives the address from the signing key's public key. -/
def HDNodeWallet.address (c : Crypto) (n : HDNodeWallet) : List Nat :=
  c.computeAddress (n.publicKey c)

/-- `dataSlice(ripemd160(sha256(publicKey)), 0, 4)`. -/
def HDNodeWallet.fingerprint (c : Crypto) (n : HDNodeWallet) : List Nat :=
  (c.ripemd160 (c.sha256 (n.publicKey c))).take 4

/-- `dataSlice(ripemd160(sha256(publicKey)), 0, 4)`. -/
def HDNodeVoidWallet.fingerprint (c : Crypto) (n : HDNodeVoidWallet) : List Nat :=
  (c.ripemd160 (c.sha256 n.publicKey)).take 4

/-- Well-formedness established by every constructor call site of
`HDNodeWallet` in the source (32-byte key and chain code, 4-byte
parent fingerprint, `u32` index). -/
structure HDNodeWallet.Wf (n : HDNodeWallet) : Prop where
  priv_len : n.privateKey.length = 32
  priv_bytes : isBytes n.privateKey
  cc_len : n.chainCode.length = 32
  cc_bytes : isBytes n.chainCode
  afp_len : n.accountFingerprint.length = 4
  afp_bytes : isBytes n.accountFingerprint
  index_lt : n.index < 2 ^ 32

/-- Well-formedness established by every constructor call site of
`HDNodeVoidWallet` in the source: in particular every site passes
`computeAddress` of the stored public key (33-byte compressed) as `address`. -/
structure HDNodeVoidWallet.Wf (c : Crypto) (n : HDNodeVoidWallet) : Prop where
  pub_len : n.publicKey.length = 33
  pub_bytes : isBytes n.publicKey
  cc_len : n.chainCode.length = 32
  cc_bytes : isBytes n.chainCode
  afp_len : n.accountFingerprint.length = 4
  afp_bytes : isBytes n.accountFingerprint
  index_lt : n.index < 2 ^ 32
  address_eq : n.address = c.computeAddress n.publicKey

/-! ## Extended keys -/

/-- Modelled from the spec: `encodeBase58Check` from `wallet/utils.js` (not
under `src/`) — "Base58Check-encoded": the payload followed by the first
4 bytes of its double SHA-256, rendered in Base58. -/
def encodeBase58Check (c : Crypto) (payload : List Nat) : List Char :=
  encodeBase58 (bytesToNat (payload ++ (c.sha256 (c.sha256 payload)).take 4))

/-- `get extendedKey` of `HDNodeWallet` (`none` models the
"Depth too deep" `UNSUPPORTED_OPERATION` failure).  The
`this.accountFingerprint ?? ''` fallback never fires on a well-formed node
(every constructor call site passes a 4-byte fingerprint). -/
def HDNodeWallet.extendedKey (c : Crypto) (n : HDNodeWallet) : Option (List Char) :=
  if n.depth < 256 then
    some (encodeBase58Check c
      ([0x04, 0x88, 0xAD, 0xE4] ++ natToBytesPad n.depth 1 ++ n.accountFingerprint ++
        natToBytesPad n.index 4 ++ n.chainCode ++ ([0x00] ++ n.privateKey)))
  else none

/-- `get extendedKey` of `HDNodeVoidWallet`. -/
def HDNodeVoidWallet.extendedKey (c : Crypto) (n : HDNodeVoidWallet) : Option (List Char) :=
  if n.depth < 256 then
    some (encodeBase58Check c
      ([0x04, 0x88, 0xB2, 0x1E] ++ natToBytesPad n.depth 1 ++ n.accountFingerprint ++
        natToBytesPad n.index 4 ++ n.chainCode ++ n.publicKey))
  else none

/-- Result of `HDNodeWallet.fromExtendedKey`: a full or a neutered node. -/
inductive DecodedNode where
  | full (n : HDNodeWallet)
  | void (n : HDNodeVoidWallet)
deriving DecidableEq

/-- `HDNodeWallet.fromExtendedKey` (`none` models the `assertArgument`
failures).  Notes kept from the source:
* the length/checksum guard is the disjunction
  `bytes.length === 82 || encodeBase58Check(bytes.slice(0, 78)) === extendedKey`;
* `bytes[4]` is modelled as `(bytes.drop 4).headD 0`;
* the testnet-private `case "0x04358394 "` of the source contains a trailing
  space inside the string literal, so it can never equal a `hexlify` output;
  hence only the `0x0488ADE4` prefix reaches the private-key branch. -/
def HDNodeWallet.fromExtendedKey (c : Crypto) (extendedKey : List Char) :
    Option DecodedNode :=
  match decodeBase58 extendedKey with
  | none => none
  | some v =>
    let bytes := natToBytes v
    if bytes.length = 82 ∨ encodeBase58Check c (bytes.take 78) = extendedKey then
      let depth := (bytes.drop 4).headD 0
      let accountFingerprint := (bytes.drop 5).take 4
      let index := bytesToNat ((bytes.drop 9).take 4)
      let chainCode := (bytes.drop 13).take 32
      let key := (bytes.drop 45).take 33
      if bytes.take 4 = [0x04, 0x88, 0xB2, 0x1E] ∨ bytes.take 4 = [0x04, 0x35, 0x87, 0xCF] then
        some (.void
          { address := c.computeAddress key, publicKey := key,
            accountFingerprint := accountFingerprint, chainCode := chainCode,
            path := none, index := index, depth := depth })
      else if bytes.take 4 = [0x04, 0x88, 0xAD, 0xE4] ∧ (key.drop 0).headD 1 = 0 then
        some (.full
          { privateKey := key.drop 1, accountFingerprint := accountFingerprint,
            chainCode := chainCode, path := none, index := index, depth := depth })
      else none
    else none

/-- Address of a decoded node. -/
def DecodedNode.address (c : Crypto) : DecodedNode → List Nat
  | .full n => n.address c
  | .void n => n.address

/-- Chain code of a decoded node. -/
def DecodedNode.chainCode : DecodedNode → List Nat
  | .full n => n.chainCode
  | .void n => n.chainCode

/-- Depth of a decoded node. -/
def DecodedNode.depth : DecodedNode → Nat
  | .full n => n.depth
  | .void n => n.depth

/-- Index of a decoded node. -/
def DecodedNode.index : DecodedNode → Nat
  | .full n => n.index
  | .void n => n.index

/-- Extended key of a full or neutered node. -/
def DecodedNode.extendedKey (c : Crypto) : DecodedNode → Option (List Char)
  | .full n => n.extendedKey c
  | .void n => n.extendedKey c

/-- Well-formedness of a full or neutered node. -/
def DecodedNode.Wf (c : Crypto) : DecodedNode → Prop
  | .full n => n.Wf
  | .void n => n.Wf c

/-! ## Concrete fixtures for witnesses: an explicit `Crypto` instance
(dummy hashes, a toy "curve" whose points are scalars mod `N` tagged with a
`0x02` prefix byte, matching the collaborator contract) and concrete nodes. -/

/-- Concrete `Crypto` instance used by the witnesses. -/
def cW : Crypto where
  hmac512 := fun _ data => (data ++ List.replicate 64 1).take 64
  sha256 := fun _ => List.replicate 32 0
  ripemd160 := fun x => x
  compressedPublicKey := fun p => 2 :: natToBytesPad (bytesToNat p % N) 32
  addPoints := fun il pk => 2 :: natToBytesPad ((bytesToNat il + bytesToNat (pk.drop 1)) % N) 32
  computeAddress := fun pub => pub.take 20

/-- Concrete full HD node used by witnesses. -/
def nW : HDNodeWallet where
  privateKey := List.replicate 32 1
  accountFingerprint := List.replicate 4 9
  chainCode := List.replicate 32 2
  path := none
  index := 5
  depth := 3

/-! ## Child derivation (`ser_I`, `deriveChild`, `neuter`) -/

/-- Modelled from the spec: `ser_I` from `wallet/utils.js` (not under `src/`):
"HMAC-SHA512 keyed by the chain code over
`(serialized parent public key or 0x00‖private key) ‖ big-endian index`;
left 32 bytes become the child's key tweak (`IL`), right 32 bytes become the
child chain code (`IR`)"; "hardened derivation requires a private parent …
and fails with an argument error if attempted on a neutered node"
(`none` models that failure). -/
def ser_I (c : Crypto) (index : Nat) (chainCode publicKey : List Nat)
    (privateKey : Option (List Nat)) : Option (List Nat × List Nat) :=
  if HardenedBit ≤ index then
    match privateKey with
    | none => none
    | some sk =>
      let I := c.hmac512 chainCode (([0x00] ++ sk) ++ natToBytesPad index 4)
      some (I.take 32, I.drop 32)
  else
    let I := c.hmac512 chainCode (publicKey ++ natToBytesPad index 4)
    some (I.take 32, I.drop 32)

/-- `HDNodeWallet.deriveChild` (`src/lib.esm/wallet/hdwallet.js:168-191`);
`none` models the "invalid index" argument error.  `index & ~HardenedBit` is
`index % HardenedBit` and the `index & HardenedBit` truthiness test is
`HardenedBit ≤ index` (both valid because `index ≤ 0xffffffff`). -/
def HDNodeWallet.deriveChild (c : Crypto) (n : HDNodeWallet) (index : Nat) :
    Option HDNodeWallet :=
  if index ≤ 0xffffffff then
    let pd :=
      match n.path with
      | none => (none, n.depth + 1)
      | some p =>
        if p = [] then (some p, n.depth + 1)
        else
          let fields := splitSlash p
          let (p', d') :=
            if fields.length = 6 then (joinSlash fields.dropLast, n.depth)
            else (p, n.depth + 1)
          (some (p' ++ [slashChar] ++ decChars (index % HardenedBit) ++
            (if HardenedBit ≤ index then [apoChar] else [])), d')
    match ser_I c index n.chainCode (n.publicKey c) (some n.privateKey) with
    | none => none
    | some (IL, IR) =>
      some { privateKey := natToBytesPad ((bytesToNat IL + bytesToNat n.privateKey) % N) 32,
             accountFingerprint :=
               if n.depth = 3 then n.fingerprint c else n.accountFingerprint,
             chainCode := IR, path := pd.1, index := index, depth := pd.2 }
  else none

/-- `HDNodeVoidWallet.deriveChild` (`src/lib.esm/wallet/hdwallet.js:421-436`). -/
def HDNodeVoidWallet.deriveChild (c : Crypto) (n : HDNodeVoidWallet) (index : Nat) :
    Option HDNodeVoidWallet :=
  if index ≤ 0xffffffff then
    let path :=
      match n.path with
      | none => none
      | some p =>
        if p = [] then some p
        else some (p ++ [slashChar] ++ decChars (index % HardenedBit) ++
          (if HardenedBit ≤ index then [apoChar] else []))
    match ser_I c index n.chainCode n.publicKey none with
    | none => none
    | some (IL, IR) =>
      let Ki := c.addPoints IL n.publicKey
      some { address := c.computeAddress Ki, publicKey := Ki,
             accountFingerprint := n.fingerprint c, chainCode := IR,
             path := path, index := index, depth := n.depth + 1 }
  else none

/-- `HDNodeWallet.neuter` (`src/lib.esm/wallet/hdwallet.js:162-164`). -/
def HDNodeWallet.neuter (c : Crypto) (n : HDNodeWallet) : HDNodeVoidWallet where
  address := n.address c
  publicKey := n.publicKey c
  accountFingerprint := n.accountFingerprint
  chainCode := n.chainCode
  path := some (n.path.getD [])
  index := n.index
  depth := n.depth

/-- Concrete neutered node used by witnesses. -/
def nVW : HDNodeVoidWallet where
  address := List.replicate 20 1
  publicKey := List.replicate 33 2
  accountFingerprint := List.replicate 4 0
  chainCode := List.replicate 32 3
  path := none
  index := 0
  depth := 7

/-- The path string `m/44'/994'/0'/0/0` (six slash-separated components, the
shape produced by deriving an address-level child of a BIP-44 change path). -/
def pathSix : List Char :=
  ['m'] ++ [slashChar] ++ decChars 44 ++ [apoChar] ++ [slashChar] ++ decChars 994 ++
    [apoChar] ++ [slashChar] ++ decChars 0 ++ [apoChar] ++ [slashChar] ++ decChars 0 ++
    [slashChar] ++ decChars 0

/-- Concrete full node whose path has six components. -/
def nW6 : HDNodeWallet := { nW with path := some pathSix, depth := 5 }

/-! ## Shard identifiers and the shard-readiness wait
(`src/src/wallet/quai-hdwallet.ts`, `WebSocketProvider` part) -/

/-- The `Shard` enum. -/
inductive Shard where
  | Cyprus | Cyprus1 | Cyprus2 | Cyprus3
  | Paxos | Paxos1 | Paxos2 | Paxos3
  | Hydra | Hydra1 | Hydra2 | Hydra3
  | Prime
deriving DecidableEq, Fintype

inductive WsError where
  | timeout
deriving DecidableEq

/-- The while-loop of `waitShardReady`, for a ready flag that stays constant
during the wait (the claim's "never set" / "is set" situations).  The second
component records the `setTimeout` delays performed, in order. -/
def waitShardReadyGo (ready : Bool) (count : Nat) (delays : List Nat) :
    (Except WsError Unit) × List Nat :=
  if ready then (.ok (), delays)
  else
    let delays' := delays ++ [2 ^ count]
    if count > 7 then (.error .timeout, delays')
    else waitShardReadyGo ready (count + 1) delays'
termination_by 8 - count
decreasing_by omega

/-- `WebSocketProvider.waitShardReady` (`quai-hdwallet.ts` provider part,
lines 414-423). -/
def WebSocketProvider.waitShardReady (readyMap : Shard → Bool) (shard : Shard) :
    (Except WsError Unit) × List Nat :=
  waitShardReadyGo (readyMap shard) 0 []

/-! ## `Wallet.fromPhrase` coin-type dispatch (`src/src.ts/wallet/wallet.ts`) -/

/-- Decimal digit test. -/
def isDigitChar (ch : Char) : Bool := decide (48 ≤ ch.toNat ∧ ch.toNat ≤ 57)

/-- JS `parseInt` on a path segment: value of the leading decimal digits,
`none` for `NaN` (no leading digit).  The coin-type segments dispatched on by
the source carry no sign or whitespace. -/
def parseIntJS (cs : List Char) : Option Nat :=
  let digits := cs.takeWhile isDigitChar
  if digits = [] then none
  else some (digits.foldl (fun a ch => a * 10 + (ch.toNat - 48)) 0)

/-- JS `s.replace("'", "")`: remove the first occurrence only. -/
def removeFirst (target : Char) : List Char → List Char
  | [] => []
  | c :: cs => if c = target then cs else c :: removeFirst target cs

/-- Which HD-wallet class `Wallet.fromPhrase` constructs (the constructors
themselves, `QuaiHDWallet.fromPhrase`/`QiHDWallet.fromPhrase`, are external to
`src/`). -/
inductive WalletKind where
  | quai
  | qi
deriving DecidableEq

inductive FromPhraseError where
  /-- `Incomplete path for wallet derivation …` -/
  | incompletePath
  /-- `Unsupported cointype … for HD wallet derivation` -/
  | unsupportedCoinType
deriving DecidableEq

/-- `Wallet.fromPhrase` (`src/src.ts/wallet/wallet.ts:187-207`): coin-type
dispatch on the path's third slash-separated segment. -/
def Wallet.fromPhrase (_phrase path : List Char) : Except FromPhraseError WalletKind :=
  let splitPath := splitSlash path
  if splitPath.length < 3 then .error .incompletePath
  else
    let coinTypeStr := removeFirst apoChar (splitPath.getD 2 [])
    match parseIntJS coinTypeStr with
    | none => .error .unsupportedCoinType
    | some coinType =>
      if coinType = 994 then .ok .quai
      else if coinType = 969 then .ok .qi
      else .error .unsupportedCoinType

/-- The BIP-44 path `m/44'/994'/0'/0`. -/
def path994 : List Char :=
  ['m'] ++ [slashChar] ++ decChars 44 ++ [apoChar] ++ [slashChar] ++ decChars 994 ++
    [apoChar] ++ [slashChar] ++ decChars 0 ++ [apoChar] ++ [slashChar] ++ decChars 0

/-! ## `Shard` string resolution (`shardFromBytes`, `ShardData`, `toShard`;
`src/src/wallet/quai-hdwallet.ts:515-581`) -/

/-- Shorthand for a string's character list. -/
def chars (s : String) : List Char := s.data

inductive ShardError where
  /-- `Invalid shard` -/
  | invalidShard
deriving DecidableEq

/-- An entry of `ZoneData`/`ShardData`. -/
structure ShardEntry where
  name : List Char
  nickname : List Char
  shard : List Char
  context : Nat
  byte : List Char
deriving DecidableEq

/-- Modelled from the spec: `ZoneData` from `constants/zones.js` (not under
`src/`) — the nine zone-level shards, each with canonical byte prefix, human
name and nickname (§3 Shard/Zone); the `zone-r-z` shard strings parallel the
`region-r` strings of the region entries in `src`. -/
def ZoneData : List ShardEntry := [
  ⟨chars "Cyprus1", chars "cyprus1", chars "zone-0-0", 2, chars "0x00"⟩,
  ⟨chars "Cyprus2", chars "cyprus2", chars "zone-0-1", 2, chars "0x01"⟩,
  ⟨chars "Cyprus3", chars "cyprus3", chars "zone-0-2", 2, chars "0x02"⟩,
  ⟨chars "Paxos1", chars "paxos1", chars "zone-1-0", 2, chars "0x10"⟩,
  ⟨chars "Paxos2", chars "paxos2", chars "zone-1-1", 2, chars "0x11"⟩,
  ⟨chars "Paxos3", chars "paxos3", chars "zone-1-2", 2, chars "0x12"⟩,
  ⟨chars "Hydra1", chars "hydra1", chars "zone-2-0", 2, chars "0x20"⟩,
  ⟨chars "Hydra2", chars "hydra2", chars "zone-2-1", 2, chars "0x21"⟩,
  ⟨chars "Hydra3", chars "hydra3", chars "zone-2-2", 2, chars "0x22"⟩]

/-- `ShardData` (`quai-hdwallet.ts:544-574`): the zone entries followed by the
region entries and the Prime entry. -/
def ShardData : List ShardEntry := ZoneData ++ [
  ⟨chars "Cyprus", chars "cyprus", chars "region-0", 2, chars "0x0"⟩,
  ⟨chars "Paxos", chars "paxos", chars "region-1", 2, chars "0x1"⟩,
  ⟨chars "Hydra", chars "hydra", chars "region-2", 2, chars "0x2"⟩,
  ⟨chars "Prime", chars "prime", chars "prime", 2, chars "0x"⟩]

/-- `shardFromBytes` (`quai-hdwallet.ts:515-538`); the `default` case throws
`Invalid shard`. -/
def shardFromBytes (shard : List Char) : Except ShardError Shard :=
  if shard = chars "0x00" then .ok .Cyprus1
  else if shard = chars "0x01" then .ok .Cyprus2
  else if shard = chars "0x02" then .ok .Cyprus3
  else if shard = chars "0x10" then .ok .Paxos1
  else if shard = chars "0x11" then .ok .Paxos2
  else if shard = chars "0x12" then .ok .Paxos3
  else if shard = chars "0x20" then .ok .Hydra1
  else if shard = chars "0x21" then .ok .Hydra2
  else if shard = chars "0x22" then .ok .Hydra3
  else .error .invalidShard

/-- `toShard` (`quai-hdwallet.ts:576-581`): `find` over `ShardData` comparing
name, byte, nickname and shard string; `?.byte || ''` turns a missed lookup
into the empty string, which `shardFromBytes` rejects. -/
def toShard (shard : List Char) : Except ShardError Shard :=
  shardFromBytes
    (((ShardData.find? (fun it => it.name == shard || it.byte == shard ||
        it.nickname == shard || it.shard == shard)).map ShardEntry.byte).getD [])

/-- The 36 identifiers (name, byte, nickname, shard string) of the nine
zone-level shards with the `Shard` value each resolves to. -/
def zoneIdTable : List (List Char × Shard) := [
  (chars "Cyprus1", Shard.Cyprus1),
  (chars "0x00", Shard.Cyprus1),
  (chars "cyprus1", Shard.Cyprus1),
  (chars "zone-0-0", Shard.Cyprus1),
  (chars "Cyprus2", Shard.Cyprus2),
  (chars "0x01", Shard.Cyprus2),
  (chars "cyprus2", Shard.Cyprus2),
  (chars "zone-0-1", Shard.Cyprus2),
  (chars "Cyprus3", Shard.Cyprus3),
  (chars "0x02", Shard.Cyprus3),
  (chars "cyprus3", Shard.Cyprus3),
  (chars "zone-0-2", Shard.Cyprus3),
  (chars "Paxos1", Shard.Paxos1),
  (chars "0x10", Shard.Paxos1),
  (chars "paxos1", Shard.Paxos1),
  (chars "zone-1-0", Shard.Paxos1),
  (chars "Paxos2", Shard.Paxos2),
  (chars "0x11", Shard.Paxos2),
  (chars "paxos2", Shard.Paxos2),
  (chars "zone-1-1", Shard.Paxos2),
  (chars "Paxos3", Shard.Paxos3),
  (chars "0x12", Shard.Paxos3),
  (chars "paxos3", Shard.Paxos3),
  (chars "zone-1-2", Shard.Paxos3),
  (chars "Hydra1", Shard.Hydra1),
  (chars "0x20", Shard.Hydra1),
  (chars "hydra1", Shard.Hydra1),
  (chars "zone-2-0", Shard.Hydra1),
  (chars "Hydra2", Shard.Hydra2),
  (chars "0x21", Shard.Hydra2),
  (chars "hydra2", Shard.Hydra2),
  (chars "zone-2-1", Shard.Hydra2),
  (chars "Hydra3", Shard.Hydra3),
  (chars "0x22", Shard.Hydra3),
  (chars "hydra3", Shard.Hydra3),
  (chars "zone-2-2", Shard.Hydra3)]

/-- Every identifier occurring in some `ShardData` entry. -/
def allShardIds : List (List Char) := [
  chars "Cyprus1",
  chars "0x00",
  chars "cyprus1",
  chars "zone-0-0",
  chars "Cyprus2",
  chars "0x01",
  chars "cyprus2",
  chars "zone-0-1",
  chars "Cyprus3",
  chars "0x02",
  chars "cyprus3",
  chars "zone-0-2",
  chars "Paxos1",
  chars "0x10",
  chars "paxos1",
  chars "zone-1-0",
  chars "Paxos2",
  chars "0x11",
  chars "paxos2",
  chars "zone-1-1",
  chars "Paxos3",
  chars "0x12",
  chars "paxos3",
  chars "zone-1-2",
  chars "Hydra1",
  chars "0x20",
  chars "hydra1",
  chars "zone-2-0",
  chars "Hydra2",
  chars "0x21",
  chars "hydra2",
  chars "zone-2-1",
  chars "Hydra3",
  chars "0x22",
  chars "hydra3",
  chars "zone-2-2",
  chars "Cyprus",
  chars "0x0",
  chars "cyprus",
  chars "region-0",
  chars "Paxos",
  chars "0x1",
  chars "paxos",
  chars "region-1",
  chars "Hydra",
  chars "0x2",
  chars "hydra",
  chars "region-2",
  chars "Prime",
  chars "0x",
  chars "prime"]

/-- The identifiers of the region-level entries and of the Prime entry. -/
def regionPrimeIds : List (List Char) := [chars "Cyprus", chars "0x0", chars "cyprus", chars "region-0", chars "Paxos", chars "0x1", chars "paxos", chars "region-1", chars "Hydra", chars "0x2", chars "hydra", chars "region-2", chars "Prime", chars "0x", chars "prime"]

/-! ## `QuaiHDWallet` address bookkeeping and (de)serialization
(`src/src/wallet/quai-hdwallet.ts`) -/

/-- `NeuteredAddressInfo` (zones are the zone-level `Shard` values). -/
structure NeuteredAddressInfo where
  pubKey : List Nat
  address : List Nat
  account : Nat
  index : Nat
  zone : Shard
deriving DecidableEq

/-- `SerializedQuaiHDWallet` / `SerializedHDWallet`. -/
structure SerializedQuaiHDWallet where
  version : Nat
  phrase : List Char
  coinType : Nat
  addresses : List NeuteredAddressInfo
deriving DecidableEq

/-- External pieces the Quai-wallet logic calls into. -/
structure QuaiEnv where
  /-- Modelled from the spec: the address node
  `root.deriveChild(account + HARDENED_OFFSET).deriveChild(0).deriveChild(addressIndex)`
  of the root derived from a phrase (`Mnemonic.fromPhrase` and
  `HDNodeWallet.fromMnemonic` live outside `src/`), reduced to the
  `(address, pubKey)` pair the wallet stores. -/
  derive : List Char → Nat → Nat → List Nat × List Nat
  /-- `getZoneForAddress` from `utils` (outside `src/`): total zone
  classification, `none` = no valid zone. -/
  getZoneForAddress : List Nat → Option Shard
  /-- `isQuaiAddress` from `address` (outside `src/`). -/
  isQuaiAddress : List Nat → Bool
  /-- Modelled from the spec: `AbstractHDWallet.validateSerializedWallet`
  (outside `src/`) checks the serialized version/coinType envelope. -/
  validateSerializedWallet : SerializedQuaiHDWallet → Bool

/-- The wallet state the claims touch: the phrase standing for the root HD
node, and the `_addresses` map in insertion order, keyed by address. -/
structure QuaiHDWallet where
  phrase : List Char
  addresses : List (List Nat × NeuteredAddressInfo)
deriving DecidableEq

/-- `Map.set`: replace the entry with the same key, else append. -/
def mapSet (m : List (List Nat × NeuteredAddressInfo)) (k : List Nat)
    (v : NeuteredAddressInfo) : List (List Nat × NeuteredAddressInfo) :=
  if m.any (fun p => p.1 == k) then m.map (fun p => if p.1 == k then (k, v) else p)
  else m ++ [(k, v)]

inductive QuaiError where
  /-- `Address for index … already exists` -/
  | addressAlreadyExists (index : Nat)
  /-- `Failed to derive a valid address zone for the index …` -/
  | invalidAddressZone (index : Nat)
  /-- `Address … is not a valid Quai address` -/
  | notQuaiAddress (address : List Nat)
  /-- `Address mismatch: …` -/
  | addressMismatch
  /-- `Public key mismatch: …` -/
  | pubKeyMismatch
  /-- `Zone mismatch: …` -/
  | zoneMismatch
  /-- failure of `validateSerializedWallet` -/
  | invalidSerializedWallet
deriving DecidableEq

/-- `QuaiHDWallet._addAddress` (`quai-hdwallet.ts:199-223`).  Returns the
result together with the wallet state: every `throw` happens before the single
`Map.set` mutation in `createAndStoreAddressInfo`, so the error paths return
the state unchanged.  `createAndStoreAddressInfo` stores
`index: addressNode.index`, which is the `addressIndex` passed to the last
`deriveChild`. -/
def QuaiHDWallet._addAddress (env : QuaiEnv) (w : QuaiHDWallet)
    (account addressIndex : Nat) :
    (Except QuaiError NeuteredAddressInfo) × QuaiHDWallet :=
  if w.addresses.any (fun p => p.2.index == addressIndex) then
    (.error (.addressAlreadyExists addressIndex), w)
  else
    let node := env.derive w.phrase account addressIndex
    match env.getZoneForAddress node.1 with
    | none => (.error (.invalidAddressZone addressIndex), w)
    | some zone =>
      if ¬ env.isQuaiAddress node.1 then (.error (.notQuaiAddress node.1), w)
      else
        let info : NeuteredAddressInfo :=
          { pubKey := node.2, address := node.1, account := account,
            index := addressIndex, zone := zone }
        (.ok info, { w with addresses := mapSet w.addresses info.address info })

/-- `QuaiHDWallet.importSerializedAddresses` (`quai-hdwallet.ts:235-249`). -/
def QuaiHDWallet.importSerializedAddresses (env : QuaiEnv) (w : QuaiHDWallet) :
    List NeuteredAddressInfo → (Except QuaiError Unit) × QuaiHDWallet
  | [] => (.ok (), w)
  | info :: rest =>
    match QuaiHDWallet._addAddress env w info.account info.index with
    | (.error e, w') => (.error e, w')
    | (.ok newInfo, w') =>
      if info.address ≠ newInfo.address then (.error .addressMismatch, w')
      else if info.pubKey ≠ newInfo.pubKey then (.error .pubKeyMismatch, w')
      else if info.zone ≠ newInfo.zone then (.error .zoneMismatch, w')
      else QuaiHDWallet.importSerializedAddresses env w' rest

/-- `QuaiHDWallet.deserialize` (`quai-hdwallet.ts:144-156`): validate the
envelope, build the wallet from the phrase, import (re-derive and
cross-validate) every stored address; a rejected import constructs no
wallet. -/
def QuaiHDWallet.deserialize (env : QuaiEnv) (serialized : SerializedQuaiHDWallet) :
    Except QuaiError QuaiHDWallet :=
  if ¬ env.validateSerializedWallet serialized then .error .invalidSerializedWallet
  else
    let wallet : QuaiHDWallet := { phrase := serialized.phrase, addresses := [] }
    match QuaiHDWallet.importSerializedAddresses env wallet serialized.addresses with
    | (.ok _, w) => .ok w
    | (.error e, _) => .error e

/-- A stored entry agrees with its re-derivation from the phrase: address,
public key and zone all match. -/
def matchesDerivation (env : QuaiEnv) (phrase : List Char)
    (info : NeuteredAddressInfo) : Prop :=
  (env.derive phrase info.account info.index).1 = info.address ∧
  (env.derive phrase info.account info.index).2 = info.pubKey ∧
  env.getZoneForAddress (env.derive phrase info.account info.index).1 = some info.zone

/-- Concrete environment for the Quai-wallet witnesses. -/
def envW : QuaiEnv where
  derive := fun _ account index => ([account, index], [account, index, 7])
  getZoneForAddress := fun _ => some Shard.Cyprus1
  isQuaiAddress := fun _ => true
  validateSerializedWallet := fun _ => true

/-- Concrete stored entry matching `envW`'s derivation at account 0, index 0. -/
def infoW : NeuteredAddressInfo where
  pubKey := [0, 0, 7]
  address := [0, 0]
  account := 0
  index := 0
  zone := Shard.Cyprus1

/-- Concrete serialized wallet. -/
def sW : SerializedQuaiHDWallet where
  version := 1
  phrase := chars "test"
  coinType := 994
  addresses := [infoW]

/-- The wallet `deserialize envW sW` constructs. -/
def wExpected : QuaiHDWallet where
  phrase := chars "test"
  addresses := [([0, 0], infoW)]

/-! ## The `fromExtendedKey` guard (claim C4) -/

/-- A 78-byte extended-key payload (private prefix, depth 0, zero fingerprint
and index, chain code of 2-bytes, private key of 1-bytes). -/
def badPayload : List Nat :=
  [0x04, 0x88, 0xAD, 0xE4] ++ [0] ++ List.replicate 4 0 ++ List.replicate 4 0 ++
    List.replicate 32 2 ++ ([0x00] ++ List.replicate 32 1)

/-- An extended-key string whose trailing four bytes `[1, 2, 3, 4]` are NOT
the Base58Check checksum of the leading 78 bytes (under `cW`, whose SHA-256 is
constantly zero, the checksum would be `[0, 0, 0, 0]`). -/
def badEK : List Char := encodeBase58 (bytesToNat (badPayload ++ [1, 2, 3, 4]))

/-- The node `fromExtendedKey` builds from `badEK`. -/
def mBad : HDNodeWallet where
  privateKey := List.replicate 32 1
  accountFingerprint := List.replicate 4 0
  chainCode := List.replicate 32 2
  path := none
  index := 0
  depth := 0

/-! ## `derivePath` and the zone-aware address search (`deriveAddress`,
`src/lib.esm/wallet/hdwallet.js:291-319`) -/

/-- ASCII lower-casing of one character (JS `toLowerCase` on the identifiers
involved). -/
def toLowerChar (ch : Char) : Char :=
  if 65 ≤ ch.toNat ∧ ch.toNat ≤ 90 then Char.ofNat (ch.toNat + 32) else ch

/-- JS `s.toLowerCase()`. -/
def toLowerChars (cs : List Char) : List Char := cs.map toLowerChar

/-- Strict decimal parse of a whole path component (the `^[0-9]+$` shape). -/
def parseDecimal (cs : List Char) : Option Nat :=
  if cs ≠ [] ∧ cs.all isDigitChar then
    some (cs.foldl (fun a ch => a * 10 + (ch.toNat - 48)) 0)
  else none

/-- Modelled from the spec: one path component of `derivePath` — decimal
digits, "optionally with trailing apostrophes denoting hardened segments". -/
def parsePathComponent (comp : List Char) : Option Nat :=
  if comp.getLast? = some apoChar then
    (parseDecimal comp.dropLast).map (fun i => HardenedBit + i)
  else parseDecimal comp

/-- Iteration of `derivePath`: `deriveChild` per parsed component. -/
def derivePathGo (c : Crypto) : HDNodeWallet → List (List Char) → Option HDNodeWallet
  | node, [] => some node
  | node, comp :: comps =>
    match parsePathComponent comp with
    | none => none
    | some i =>
      match node.deriveChild c i with
      | none => none
      | some child => derivePathGo c child comps

/-- Modelled from the spec: `derivePath` from `wallet/utils.js` (not under
`src/`): "parses a slash-separated path (optionally with trailing apostrophes
denoting hardened segments), applies `deriveChild` iteratively from the node
matching the path's root, and fails if the path is syntactically invalid or
mixes an incompatible root segment" (`none` models the argument errors). -/
def derivePath (c : Crypto) (node : HDNodeWallet) (path : List Char) :
    Option HDNodeWallet :=
  match splitSlash path with
  | [] => none
  | comp0 :: rest =>
    if comp0 = ['m'] then
      if node.depth = 0 then derivePathGo c node rest else none
    else derivePathGo c node (comp0 :: rest)

/-- External address classifiers used by `deriveAddress`
(`getShardForAddress` and `isUTXOAddress` from `utils`, outside `src/`).
`getShardForAddress` returns a `ShardData` entry (the JS `==` comparison in
the loop is reference equality on those shared entry objects, i.e. entry
equality). -/
structure ZoneEnv where
  getShardForAddress : List Nat → Option ShardEntry
  isUTXOAddress : List Nat → Bool

inductive DeriveAddressError where
  /-- `Missing Path` -/
  | missingPath
  /-- `No zone provided for a Quai / Qi wallet` -/
  | noZoneProvided
  /-- `Invalid zone` -/
  | invalidZone
  /-- an error thrown by `derivePath`/`deriveChild` during the loop (e.g. the
  `invalid index` argument error once the address index leaves the u32 range) -/
  | derivationFailed
deriving DecidableEq

/-- The `do … while (zoneIndex > 0)` loop of `deriveAddress`, indexed by fuel:
`none` means the loop performed `fuel` iterations without exiting (so results
stated for sufficient fuel describe the unbounded source loop).  Derived
wallets carry `coinType = none`: the constructor never sets `coinType`, so the
JS comparison `newWallet.coinType == 969` is against `undefined`. -/
def deriveAddressLoop (c : Crypto) (env : ZoneEnv) (n : HDNodeWallet)
    (shard : ShardEntry) : Nat → Nat → Nat →
    Option (Except DeriveAddressError HDNodeWallet)
  | 0, _, _ => none
  | fuel + 1, addrIndex, zoneIndex =>
    match derivePath c n (decChars addrIndex) with
    | none => some (.error .derivationFailed)
    | some w =>
      let zi :=
        if (env.getShardForAddress (w.address c) == some shard) &&
            ((w.coinType == some 969) == env.isUTXOAddress (w.address c)) then
          zoneIndex - 1
        else zoneIndex
      if zi = 0 then some (.ok w)
      else deriveAddressLoop c env n shard fuel (addrIndex + 1) zi

/-- `HDNodeWallet.deriveAddress` (`hdwallet.js:291-319`). -/
def HDNodeWallet.deriveAddress (c : Crypto) (env : ZoneEnv) (n : HDNodeWallet)
    (index : Nat) (zone : Option (List Char)) (fuel : Nat) :
    Option (Except DeriveAddressError HDNodeWallet) :=
  match n.path with
  | none => some (.error .missingPath)
  | some p =>
    if p = [] then some (.error .missingPath)
    else
      match zone with
      | none =>
        if (n.coinType == some 994) || (n.coinType == some 969) then
          some (.error .noZoneProvided)
        else
          some (match derivePath c n (p ++ [slashChar] ++ decChars index) with
            | some w => .ok w
            | none => .error .derivationFailed)
      | some zone0 =>
        match ShardData.find? (fun sh =>
            toLowerChars sh.name == toLowerChars zone0 ||
            toLowerChars sh.nickname == toLowerChars zone0 ||
            toLowerChars sh.byte == toLowerChars zone0) with
        | none => some (.error .invalidZone)
        | some shard => deriveAddressLoop c env n shard fuel 0 (index + 1)

/-- The loop's match test at address index `j`. -/
def loopCond (c : Crypto) (env : ZoneEnv) (n : HDNodeWallet) (shard : ShardEntry)
    (j : Nat) : Bool :=
  match derivePath c n (decChars j) with
  | none => false
  | some w =>
    (env.getShardForAddress (w.address c) == some shard) &&
      ((w.coinType == some 969) == env.isUTXOAddress (w.address c))

/-- Concrete crypto instance for the search fixtures: the HMAC copies the
serialized index into the tweak, so every derived child gets a distinct
address that encodes its address index. -/
def cW2 : Crypto where
  hmac512 := fun _ data => List.replicate 28 0 ++ data.drop 33
  sha256 := fun _ => List.replicate 32 0
  ripemd160 := fun x => x
  compressedPublicKey := fun p => 9 :: p
  addPoints := fun il _ => il
  computeAddress := fun pub => pub.drop 1

/-- The Cyprus1 entry of `ZoneData`. -/
def cyprus1Entry : ShardEntry :=
  ⟨chars "Cyprus1", chars "cyprus1", chars "zone-0-0", 2, chars "0x00"⟩

/-- Zone classifier that matches exactly the address derived at index
`target` (and classifies nothing as a UTXO address). -/
def zEnvT (target : Nat) : ZoneEnv where
  getShardForAddress := fun a =>
    if a = natToBytesPad target 32 then some cyprus1Entry else none
  isUTXOAddress := fun _ => false

/-- Concrete node the search runs on. -/
def nLoop : HDNodeWallet where
  privateKey := List.replicate 32 0
  accountFingerprint := List.replicate 4 0
  chainCode := List.replicate 32 0
  path := some ['m']
  index := 0
  depth := 1

/-- The wallet the source's loop returns at address index 10000. -/
def wTarget : HDNodeWallet where
  privateKey := natToBytesPad 10000 32
  accountFingerprint := List.replicate 4 0
  chainCode := []
  path := some (chars "m/10000")
  index := 10000
  depth := 2

/-! ## Theorems -/

theorem natToDigitsAux_congr (b : Nat) (hb : 2 ≤ b) :
    ∀ n f₁ f₂, n < f₁ → n < f₂ → natToDigitsAux b f₁ n = natToDigitsAux b f₂ n := by
  intro n
  induction n using Nat.strong_induction_on with
  | _ n ih =>
    intro f₁ f₂ h₁ h₂
    match f₁, f₂ with
    | g₁ + 1, g₂ + 1 =>
      simp only [natToDigitsAux]
      by_cases hn : n = 0
      · simp [hn]
      · simp only [hn, if_false]
        have hdiv : n / b < n := Nat.div_lt_self (Nat.pos_of_ne_zero hn) hb
        rw [ih (n / b) hdiv g₁ g₂ (by omega) (by omega)]

theorem natToDigitsAux_succ (b fuel n : Nat) :
    natToDigitsAux b (fuel + 1) n =
      if n = 0 then [] else natToDigitsAux b fuel (n / b) ++ [n % b] := rfl

/-- Recursive characterization of `natToDigits`. -/
theorem natToDigits_eq (b n : Nat) (hb : 2 ≤ b) :
    natToDigits b n = if n = 0 then [] else natToDigits b (n / b) ++ [n % b] := by
  by_cases hn : n = 0
  · simp [hn, natToDigits, natToDigitsAux]
  · have hdiv : n / b < n := Nat.div_lt_self (Nat.pos_of_ne_zero hn) hb
    rw [natToDigits, natToDigitsAux_succ]
    simp only [hn, if_false]
    rw [natToDigitsAux_congr b hb (n / b) n (n / b + 1) hdiv (Nat.lt_succ_self _)]
    rfl

theorem natToDigits_lt (b n : Nat) (hb : 2 ≤ b) : ∀ d ∈ natToDigits b n, d < b := by
  induction n using Nat.strong_induction_on with
  | _ n ih =>
    rw [natToDigits_eq b n hb]
    by_cases hn : n = 0
    · simp [hn]
    · simp only [hn, if_false]
      intro d hd
      rcases List.mem_append.mp hd with h | h
      · exact ih (n / b) (Nat.div_lt_self (Nat.pos_of_ne_zero hn) hb) d h
      · simp only [List.mem_singleton] at h
        subst h
        exact Nat.mod_lt n (by omega)

theorem digitsVal_append_singleton (b : Nat) (ds : List Nat) (d : Nat) :
    digitsVal b (ds ++ [d]) = digitsVal b ds * b + d := by
  simp [digitsVal, List.foldl_append]

theorem digitsVal_natToDigits (b n : Nat) (hb : 2 ≤ b) :
    digitsVal b (natToDigits b n) = n := by
  induction n using Nat.strong_induction_on with
  | _ n ih =>
    rw [natToDigits_eq b n hb]
    by_cases hn : n = 0
    · simp [hn, digitsVal]
    · simp only [hn, if_false]
      rw [digitsVal_append_singleton,
        ih (n / b) (Nat.div_lt_self (Nat.pos_of_ne_zero hn) hb),
        Nat.mul_comm, Nat.div_add_mod]

theorem digitsVal_foldl_ge (b : Nat) (hb : 1 ≤ b) (ds : List Nat) :
    ∀ acc, acc ≤ ds.foldl (fun a d => a * b + d) acc := by
  induction ds with
  | nil => intro acc; simp
  | cons d ds ih =>
    intro acc
    simp only [List.foldl_cons]
    calc acc ≤ acc * b + d := by nlinarith
    _ ≤ ds.foldl (fun a d => a * b + d) (acc * b + d) := ih _

theorem digitsVal_pos (b : Nat) (hb : 1 ≤ b) (h : Nat) (t : List Nat) (hh : h ≠ 0) :
    0 < digitsVal b (h :: t) := by
  simp only [digitsVal, List.foldl_cons]
  calc 0 < h := Nat.pos_of_ne_zero hh
  _ = 0 * b + h := by ring
  _ ≤ t.foldl (fun a d => a * b + d) (0 * b + h) := digitsVal_foldl_ge b hb t _

theorem natToDigits_digitsVal (b : Nat) (hb : 2 ≤ b) (ds : List Nat)
    (hz : noLeadZero ds) (hlt : ∀ d ∈ ds, d < b) :
    natToDigits b (digitsVal b ds) = ds := by
  induction ds using List.reverseRecOn with
  | nil => simp [digitsVal, natToDigits_eq b 0 hb]
  | append_singleton ds d ih =>
    have hd : d < b := hlt d (by simp)
    rw [digitsVal_append_singleton]
    cases ds with
    | nil =>
      have hdz : d ≠ 0 := hz
      simp only [digitsVal, List.foldl_nil, Nat.zero_mul, Nat.zero_add]
      rw [natToDigits_eq b d hb]
      simp [hdz, Nat.div_eq_of_lt hd, Nat.mod_eq_of_lt hd, natToDigits, natToDigitsAux]
    | cons h t =>
      have hz' : noLeadZero (h :: t) := hz
      have hval : 0 < digitsVal b (h :: t) := digitsVal_pos b (by omega) h t hz'
      have hlt' : ∀ x ∈ h :: t, x < b := by
        intro x hx
        apply hlt
        rcases List.mem_cons.mp hx with rfl | hx'
        · exact List.mem_cons_self _ _
        · exact List.mem_cons_of_mem _ (List.mem_append_left _ hx')
      rw [natToDigits_eq b _ hb]
      have hnz : digitsVal b (h :: t) * b + d ≠ 0 := by
        have : 0 < digitsVal b (h :: t) * b := Nat.mul_pos hval (by omega)
        omega
      simp only [hnz, if_false]
      rw [Nat.mul_comm (digitsVal b (h :: t)) b, Nat.mul_add_div (by omega),
        Nat.div_eq_of_lt hd, Nat.add_zero, Nat.mul_add_mod, Nat.mod_eq_of_lt hd,
        ih hz' hlt']

theorem natToDigits_length_le (b n k : Nat) (hb : 2 ≤ b) (h : n < b ^ k) :
    (natToDigits b n).length ≤ k := by
  induction n using Nat.strong_induction_on generalizing k with
  | _ n ih =>
    rw [natToDigits_eq b n hb]
    by_cases hn : n = 0
    · simp [hn]
    · simp only [hn, if_false, List.length_append, List.length_singleton]
      match k with
      | 0 => simp at h; omega
      | k + 1 =>
        have hdiv : n / b < b ^ k := by
          apply Nat.div_lt_of_lt_mul
          calc n < b ^ (k + 1) := h
          _ = b * b ^ k := by ring
        have := ih (n / b) (Nat.div_lt_self (Nat.pos_of_ne_zero hn) hb) k hdiv
        omega

theorem bytesToNat_natToBytes (n : Nat) : bytesToNat (natToBytes n) = n :=
  digitsVal_natToDigits 256 n (by omega)

theorem natToBytes_bytesToNat (bs : List Nat) (hz : noLeadZero bs) (hb : isBytes bs) :
    natToBytes (bytesToNat bs) = bs :=
  natToDigits_digitsVal 256 (by omega) bs hz hb

theorem digitsVal_replicate_zero_append (b m : Nat) (ds : List Nat) :
    digitsVal b (List.replicate m 0 ++ ds) = digitsVal b ds := by
  induction m with
  | zero => simp
  | succ m ih => simpa [digitsVal, List.replicate_succ] using ih

theorem bytesToNat_natToBytesPad (n k : Nat) : bytesToNat (natToBytesPad n k) = n := by
  rw [natToBytesPad, bytesToNat, digitsVal_replicate_zero_append]
  exact bytesToNat_natToBytes n

theorem natToBytesPad_length (n k : Nat) (h : n < 256 ^ k) :
    (natToBytesPad n k).length = k := by
  have := natToDigits_length_le 256 n k (by omega) h
  simp only [natToBytesPad, List.length_append, List.length_replicate]
  unfold natToBytes
  omega

theorem natToBytesPad_isBytes (n k : Nat) : isBytes (natToBytesPad n k) := by
  intro x hx
  rcases List.mem_append.mp hx with h | h
  · have := List.eq_of_mem_replicate h; omega
  · exact natToDigits_lt 256 n (by omega) x h

theorem natToBytes_isBytes (n : Nat) : isBytes (natToBytes n) :=
  fun x hx => natToDigits_lt 256 n (by omega) x hx

theorem noLeadZero_natToBytes_bytesToNat (bs : List Nat) (h : Nat) (t : List Nat)
    (hbs : bs = h :: t) (hh : h ≠ 0) (hb : isBytes bs) :
    natToBytes (bytesToNat bs) = bs := by
  subst hbs
  exact natToBytes_bytesToNat (h :: t) hh hb

theorem b58Val_b58Char : ∀ d : Fin 58, b58Val (b58Char d.val) = some d.val := by decide

theorem decodeBase58_go_digits (ds : List Nat) :
    ∀ acc, (∀ d ∈ ds, d < 58) →
      decodeBase58.go acc (ds.map b58Char) =
        some (ds.foldl (fun a d => a * 58 + d) acc) := by
  induction ds with
  | nil => intro acc _; rfl
  | cons d ds ih =>
    intro acc hds
    have hd : d < 58 := hds d (List.mem_cons_self _ _)
    simp only [List.map_cons, decodeBase58.go, b58Val_b58Char ⟨d, hd⟩, List.foldl_cons]
    exact ih _ (fun x hx => hds x (List.mem_cons_of_mem _ hx))

/-- Base58 decode is a left inverse of encode. -/
theorem decodeBase58_encodeBase58 (n : Nat) : decodeBase58 (encodeBase58 n) = some n := by
  rw [encodeBase58, decodeBase58,
    decodeBase58_go_digits (natToDigits 58 n) 0 (natToDigits_lt 58 n (by omega))]
  exact congrArg some (digitsVal_natToDigits 58 n (by omega))

/-! ## Extended-key round trip (claim C1) -/

theorem isBytes_append (a b : List Nat) (ha : isBytes a) (hb : isBytes b) :
    isBytes (a ++ b) := by
  intro x hx
  rcases List.mem_append.mp hx with h | h
  · exact ha x h
  · exact hb x h

theorem isBytes_cons (d : Nat) (t : List Nat) (hd : d < 256) (ht : isBytes t) :
    isBytes (d :: t) := by
  intro x hx
  rcases List.mem_cons.mp hx with rfl | h
  · exact hd
  · exact ht x h

theorem isBytes_take (k : Nat) (l : List Nat) (hl : isBytes l) : isBytes (l.take k) :=
  fun x hx => hl x (List.take_subset k l hx)

theorem isBytes_nil : isBytes [] := fun x hx => absurd hx (List.not_mem_nil x)

theorem natToBytes_bytesToNat_head (bs : List Nat) (hh : bs.headD 0 ≠ 0)
    (hb : isBytes bs) : natToBytes (bytesToNat bs) = bs := by
  cases bs with
  | nil => simp at hh
  | cons h t => exact natToBytes_bytesToNat (h :: t) hh hb

theorem natToBytesPad_one (n : Nat) (h : n < 256) : natToBytesPad n 1 = [n] := by
  by_cases hn : n = 0
  · subst hn; decide
  · have hb : natToBytes n = [n] := by
      rw [natToBytes, natToDigits_eq 256 n (by omega)]
      simp [hn, Nat.div_eq_of_lt h, Nat.mod_eq_of_lt h, natToDigits, natToDigitsAux]
    rw [natToBytesPad, hb]
    simp

/-- Decoding `encodeBase58Check` of a 78-byte payload whose first four bytes
are the full-key version prefix reconstructs the payload's components. -/
theorem fromExtendedKey_layout_full (c : Crypto) (hc : c.Wf)
    (d : Nat) (afp idx4 cc sk : List Nat)
    (hd : d < 256)
    (hafp : afp.length = 4) (hafpb : isBytes afp)
    (hidx : idx4.length = 4) (hidxb : isBytes idx4)
    (hcc : cc.length = 32) (hccb : isBytes cc)
    (hsk : sk.length = 32) (hskb : isBytes sk) :
    HDNodeWallet.fromExtendedKey c
      (encodeBase58Check c
        ([0x04, 0x88, 0xAD, 0xE4] ++ [d] ++ afp ++ idx4 ++ cc ++ ([0x00] ++ sk))) =
      some (.full
        { privateKey := sk, accountFingerprint := afp, chainCode := cc,
          path := none, index := bytesToNat idx4, depth := d }) := by
  set payload := [0x04, 0x88, 0xAD, 0xE4] ++ [d] ++ afp ++ idx4 ++ cc ++ ([0x00] ++ sk)
    with hPdef
  obtain ⟨ck, hckeq, hckl, hckb⟩ :
      ∃ ck, (c.sha256 (c.sha256 payload)).take 4 = ck ∧ ck.length = 4 ∧ isBytes ck :=
    ⟨_, rfl, by rw [List.length_take, hc.sha256_len]; decide,
      isBytes_take _ _ (hc.sha256_bytes _)⟩
  have hPb : isBytes payload := by
    rw [hPdef]
    refine isBytes_append _ _ ?_ (isBytes_cons 0 sk (by omega) hskb)
    refine isBytes_append _ _ ?_ hccb
    refine isBytes_append _ _ ?_ hidxb
    refine isBytes_append _ _ ?_ hafpb
    exact isBytes_append _ _ (by simp [isBytes]) (isBytes_cons d [] hd isBytes_nil)
  have hPl : payload.length = 78 := by
    simp [hPdef, hafp, hidx, hcc, hsk]
  have hEnc : encodeBase58Check c payload = encodeBase58 (bytesToNat (payload ++ ck)) := by
    rw [encodeBase58Check, hckeq]
  have hdec : decodeBase58 (encodeBase58Check c payload) =
      some (bytesToNat (payload ++ ck)) := by
    rw [hEnc]; exact decodeBase58_encodeBase58 _
  have hbytes : natToBytes (bytesToNat (payload ++ ck)) = payload ++ ck := by
    apply natToBytes_bytesToNat_head
    · rw [hPdef]; simp
    · exact isBytes_append _ _ hPb hckb
  have hlen82 : (payload ++ ck).length = 82 := by
    rw [List.length_append, hPl, hckl]
  have hsplit : payload ++ ck =
      [0x04, 0x88, 0xAD, 0xE4] ++
        ([d] ++ (afp ++ (idx4 ++ (cc ++ (([0x00] ++ sk) ++ ck))))) := by
    simp [hPdef, List.append_assoc]
  have htake4 : (payload ++ ck).take 4 = [0x04, 0x88, 0xAD, 0xE4] := by
    rw [hsplit, List.take_left' (by rfl)]
  have hd4 : (payload ++ ck).drop 4 =
      [d] ++ (afp ++ (idx4 ++ (cc ++ (([0x00] ++ sk) ++ ck)))) := by
    rw [hsplit, List.drop_left' (by rfl)]
  have hh4 : ((payload ++ ck).drop 4).headD 0 = d := by rw [hd4]; rfl
  have hd5 : (payload ++ ck).drop 5 = afp ++ (idx4 ++ (cc ++ (([0x00] ++ sk) ++ ck))) := by
    rw [show (5 : Nat) = 4 + 1 from rfl, ← List.drop_drop, hd4]
    rfl
  have hh5 : ((payload ++ ck).drop 5).take 4 = afp := by
    rw [hd5, List.take_left' hafp]
  have hd9 : (payload ++ ck).drop 9 = idx4 ++ (cc ++ (([0x00] ++ sk) ++ ck)) := by
    rw [show (9 : Nat) = 5 + 4 from rfl, ← List.drop_drop, hd5, List.drop_left' hafp]
  have hh9 : ((payload ++ ck).drop 9).take 4 = idx4 := by
    rw [hd9, List.take_left' hidx]
  have hd13 : (payload ++ ck).drop 13 = cc ++ (([0x00] ++ sk) ++ ck) := by
    rw [show (13 : Nat) = 9 + 4 from rfl, ← List.drop_drop, hd9, List.drop_left' hidx]
  have hh13 : ((payload ++ ck).drop 13).take 32 = cc := by
    rw [hd13, List.take_left' hcc]
  have hd45 : (payload ++ ck).drop 45 = ([0x00] ++ sk) ++ ck := by
    rw [show (45 : Nat) = 13 + 32 from rfl, ← List.drop_drop, hd13, List.drop_left' hcc]
  have hh45 : ((payload ++ ck).drop 45).take 33 = [0x00] ++ sk := by
    rw [hd45, List.take_left' (by simp [hsk])]
  simp only [HDNodeWallet.fromExtendedKey, hdec]
  rw [hbytes, if_pos (Or.inl hlen82), htake4, hh4, hh5, hh9, hh13, hh45]
  rw [if_neg (by decide), if_pos ⟨rfl, rfl⟩]
  rfl

/-- Decoding `encodeBase58Check` of a 78-byte payload whose first four bytes
are the neutered-key version prefix reconstructs the payload's components. -/
theorem fromExtendedKey_layout_void (c : Crypto) (hc : c.Wf)
    (d : Nat) (afp idx4 cc pub : List Nat)
    (hd : d < 256)
    (hafp : afp.length = 4) (hafpb : isBytes afp)
    (hidx : idx4.length = 4) (hidxb : isBytes idx4)
    (hcc : cc.length = 32) (hccb : isBytes cc)
    (hpub : pub.length = 33) (hpubb : isBytes pub) :
    HDNodeWallet.fromExtendedKey c
      (encodeBase58Check c
        ([0x04, 0x88, 0xB2, 0x1E] ++ [d] ++ afp ++ idx4 ++ cc ++ pub)) =
      some (.void
        { address := c.computeAddress pub, publicKey := pub,
          accountFingerprint := afp, chainCode := cc,
          path := none, index := bytesToNat idx4, depth := d }) := by
  set payload := [0x04, 0x88, 0xB2, 0x1E] ++ [d] ++ afp ++ idx4 ++ cc ++ pub with hPdef
  obtain ⟨ck, hckeq, hckl, hckb⟩ :
      ∃ ck, (c.sha256 (c.sha256 payload)).take 4 = ck ∧ ck.length = 4 ∧ isBytes ck :=
    ⟨_, rfl, by rw [List.length_take, hc.sha256_len]; decide,
      isBytes_take _ _ (hc.sha256_bytes _)⟩
  have hPb : isBytes payload := by
    rw [hPdef]
    refine isBytes_append _ _ ?_ hpubb
    refine isBytes_append _ _ ?_ hccb
    refine isBytes_append _ _ ?_ hidxb
    refine isBytes_append _ _ ?_ hafpb
    exact isBytes_append _ _ (by simp [isBytes]) (isBytes_cons d [] hd isBytes_nil)
  have hPl : payload.length = 78 := by
    simp [hPdef, hafp, hidx, hcc, hpub]
  have hEnc : encodeBase58Check c payload = encodeBase58 (bytesToNat (payload ++ ck)) := by
    rw [encodeBase58Check, hckeq]
  have hdec : decodeBase58 (encodeBase58Check c payload) =
      some (bytesToNat (payload ++ ck)) := by
    rw [hEnc]; exact decodeBase58_encodeBase58 _
  have hbytes : natToBytes (bytesToNat (payload ++ ck)) = payload ++ ck := by
    apply natToBytes_bytesToNat_head
    · rw [hPdef]; simp
    · exact isBytes_append _ _ hPb hckb
  have hlen82 : (payload ++ ck).length = 82 := by
    rw [List.length_append, hPl, hckl]
  have hsplit : payload ++ ck =
      [0x04, 0x88, 0xB2, 0x1E] ++
        ([d] ++ (afp ++ (idx4 ++ (cc ++ (pub ++ ck))))) := by
    simp [hPdef, List.append_assoc]
  have htake4 : (payload ++ ck).take 4 = [0x04, 0x88, 0xB2, 0x1E] := by
    rw [hsplit, List.take_left' (by rfl)]
  have hd4 : (payload ++ ck).drop 4 =
      [d] ++ (afp ++ (idx4 ++ (cc ++ (pub ++ ck)))) := by
    rw [hsplit, List.drop_left' (by rfl)]
  have hh4 : ((payload ++ ck).drop 4).headD 0 = d := by rw [hd4]; rfl
  have hd5 : (payload ++ ck).drop 5 = afp ++ (idx4 ++ (cc ++ (pub ++ ck))) := by
    rw [show (5 : Nat) = 4 + 1 from rfl, ← List.drop_drop, hd4]
    rfl
  have hh5 : ((payload ++ ck).drop 5).take 4 = afp := by
    rw [hd5, List.take_left' hafp]
  have hd9 : (payload ++ ck).drop 9 = idx4 ++ (cc ++ (pub ++ ck)) := by
    rw [show (9 : Nat) = 5 + 4 from rfl, ← List.drop_drop, hd5, List.drop_left' hafp]
  have hh9 : ((payload ++ ck).drop 9).take 4 = idx4 := by
    rw [hd9, List.take_left' hidx]
  have hd13 : (payload ++ ck).drop 13 = cc ++ (pub ++ ck) := by
    rw [show (13 : Nat) = 9 + 4 from rfl, ← List.drop_drop, hd9, List.drop_left' hidx]
  have hh13 : ((payload ++ ck).drop 13).take 32 = cc := by
    rw [hd13, List.take_left' hcc]
  have hd45 : (payload ++ ck).drop 45 = pub ++ ck := by
    rw [show (45 : Nat) = 13 + 32 from rfl, ← List.drop_drop, hd13, List.drop_left' hcc]
  have hh45 : ((payload ++ ck).drop 45).take 33 = pub := by
    rw [hd45, List.take_left' hpub]
  simp only [HDNodeWallet.fromExtendedKey, hdec]
  rw [hbytes, if_pos (Or.inl hlen82), htake4, hh4, hh5, hh9, hh13, hh45]
  rw [if_pos (Or.inl rfl)]

theorem extendedKey_roundTrip_full (c : Crypto) (hc : c.Wf) (n : HDNodeWallet)
    (hn : n.Wf) (hdep : n.depth < 256) :
    ∃ ek, n.extendedKey c = some ek ∧
      HDNodeWallet.fromExtendedKey c ek = some (.full
        { privateKey := n.privateKey, accountFingerprint := n.accountFingerprint,
          chainCode := n.chainCode, path := none,
          index := n.index, depth := n.depth }) := by
  have hidx4 : n.index < 256 ^ 4 := by
    calc n.index < 2 ^ 32 := hn.index_lt
    _ = 256 ^ 4 := by norm_num
  refine ⟨encodeBase58Check c
      ([0x04, 0x88, 0xAD, 0xE4] ++ [n.depth] ++ n.accountFingerprint ++
        natToBytesPad n.index 4 ++ n.chainCode ++ ([0x00] ++ n.privateKey)), ?_, ?_⟩
  · rw [HDNodeWallet.extendedKey, if_pos hdep, natToBytesPad_one n.depth hdep]
  · rw [fromExtendedKey_layout_full c hc n.depth n.accountFingerprint
      (natToBytesPad n.index 4) n.chainCode n.privateKey hdep
      hn.afp_len hn.afp_bytes (natToBytesPad_length _ _ hidx4)
      (natToBytesPad_isBytes _ _) hn.cc_len hn.cc_bytes hn.priv_len hn.priv_bytes,
      bytesToNat_natToBytesPad]

theorem extendedKey_roundTrip_void (c : Crypto) (hc : c.Wf) (n : HDNodeVoidWallet)
    (hn : n.Wf c) (hdep : n.depth < 256) :
    ∃ ek, n.extendedKey c = some ek ∧
      HDNodeWallet.fromExtendedKey c ek = some (.void
        { address := c.computeAddress n.publicKey, publicKey := n.publicKey,
          accountFingerprint := n.accountFingerprint, chainCode := n.chainCode,
          path := none, index := n.index, depth := n.depth }) := by
  have hidx4 : n.index < 256 ^ 4 := by
    calc n.index < 2 ^ 32 := hn.index_lt
    _ = 256 ^ 4 := by norm_num
  refine ⟨encodeBase58Check c
      ([0x04, 0x88, 0xB2, 0x1E] ++ [n.depth] ++ n.accountFingerprint ++
        natToBytesPad n.index 4 ++ n.chainCode ++ n.publicKey), ?_, ?_⟩
  · rw [HDNodeVoidWallet.extendedKey, if_pos hdep, natToBytesPad_one n.depth hdep]
  · rw [fromExtendedKey_layout_void c hc n.depth n.accountFingerprint
      (natToBytesPad n.index 4) n.chainCode n.publicKey hdep
      hn.afp_len hn.afp_bytes (natToBytesPad_length _ _ hidx4)
      (natToBytesPad_isBytes _ _) hn.cc_len hn.cc_bytes hn.pub_len hn.pub_bytes,
      bytesToNat_natToBytesPad]

/-- **C1.** For every HD node (full or neutered) with depth < 256, decoding the
node's encoded extended key with `fromExtendedKey` returns a node with the same
address, chain code, depth, and index as the original node. -/
theorem extendedKey_fromExtendedKey_roundTrip (c : Crypto) (hc : c.Wf)
    (n : DecodedNode) (hn : n.Wf c) (hdep : n.depth < 256) :
    ∃ ek m, n.extendedKey c = some ek ∧
      HDNodeWallet.fromExtendedKey c ek = some m ∧
      m.address c = n.address c ∧ m.chainCode = n.chainCode ∧
      m.depth = n.depth ∧ m.index = n.index := by
  cases n with
  | full nf =>
    have hnf : nf.Wf := hn
    obtain ⟨ek, h1, h2⟩ := extendedKey_roundTrip_full c hc nf hnf hdep
    exact ⟨ek, _, h1, h2, rfl, rfl, rfl, rfl⟩
  | void nv =>
    have hnv : nv.Wf c := hn
    obtain ⟨ek, h1, h2⟩ := extendedKey_roundTrip_void c hc nv hnv hdep
    refine ⟨ek, _, h1, h2, ?_, rfl, rfl, rfl⟩
    exact hnv.address_eq.symm

theorem cW_Wf : cW.Wf := by
  constructor
  · intro x
    show isBytes (List.replicate 32 0)
    unfold isBytes
    decide
  · intro x
    rfl

theorem cW_ECAddContract : cW.ECAddContract := by
  intro il pk
  show (2 : Nat) :: natToBytesPad (bytesToNat (natToBytesPad ((bytesToNat il + bytesToNat pk) % N) 32) % N) 32 =
    2 :: natToBytesPad ((bytesToNat il + bytesToNat ((2 :: natToBytesPad (bytesToNat pk % N) 32).drop 1)) % N) 32
  rw [bytesToNat_natToBytesPad, Nat.mod_mod_of_dvd _ dvd_rfl,
    List.drop_one, List.tail_cons, bytesToNat_natToBytesPad, Nat.add_mod_mod]

theorem nW_Wf : nW.Wf := by
  constructor <;> first | decide | (intro x hx; have := List.eq_of_mem_replicate hx; omega)

/-- **C1 witness.** The round trip evaluated at the concrete crypto instance
and full node. -/
theorem extendedKey_fromExtendedKey_roundTrip_witness :
    ∃ ek m, (DecodedNode.full nW).extendedKey cW = some ek ∧
      HDNodeWallet.fromExtendedKey cW ek = some m ∧
      m.address cW = (DecodedNode.full nW).address cW ∧
      m.chainCode = (DecodedNode.full nW).chainCode ∧
      m.depth = (DecodedNode.full nW).depth ∧
      m.index = (DecodedNode.full nW).index :=
  extendedKey_fromExtendedKey_roundTrip cW cW_Wf (.full nW) nW_Wf (by decide)

/-- **C2.** For every full HD node and every non-hardened child index
`i < 2^31`, neutering then deriving child `i` yields the same address as
deriving child `i` then neutering, given the curve collaborator's
tweak/point-addition contract. -/
theorem neuter_deriveChild_address_comm (c : Crypto) (hec : c.ECAddContract)
    (n : HDNodeWallet) (i : Nat) (hi : i < HardenedBit) :
    ∃ v w, (n.neuter c).deriveChild c i = some v ∧ n.deriveChild c i = some w ∧
      v.address = ((w.neuter c)).address := by
  have hle : i ≤ 0xffffffff := by
    have : HardenedBit = 0x80000000 := rfl
    omega
  have hnh : ¬ HardenedBit ≤ i := by omega
  simp only [HDNodeVoidWallet.deriveChild, HDNodeWallet.deriveChild, ser_I,
    HDNodeWallet.neuter, HDNodeWallet.address, HDNodeWallet.publicKey,
    hle, hnh, if_true, if_false, ite_true, ite_false]
  refine ⟨_, _, rfl, rfl, ?_⟩
  show c.computeAddress (c.addPoints _ (c.compressedPublicKey n.privateKey)) =
    c.computeAddress (c.compressedPublicKey (natToBytesPad ((bytesToNat _ + bytesToNat n.privateKey) % N) 32))
  rw [hec]

/-- **C2 witness.** The commuting derivation evaluated at the concrete crypto
instance (which satisfies the curve contract) and node. -/
theorem neuter_deriveChild_address_comm_witness :
    ∃ v w, (nW.neuter cW).deriveChild cW 7 = some v ∧ nW.deriveChild cW 7 = some w ∧
      v.address = ((w.neuter cW)).address :=
  neuter_deriveChild_address_comm cW cW_ECAddContract nW 7 (by decide)

/-- **C3 counterexample.** Claim C3 states that `deriveChild` always returns a
node of depth exactly one greater than the parent's; but for the full node
`nW6` of depth 5 (path `m/44'/994'/0'/0/0`, six components) the child returned
by `deriveChild(0)` has depth 5, not 6. -/
theorem deriveChild_depth_counterexample :
    nW6.depth = 5 ∧ (nW6.deriveChild cW 0).map HDNodeWallet.depth = some 5 ∧
      (nW6.deriveChild cW 0).map HDNodeWallet.depth ≠ some (nW6.depth + 1) := by
  refine ⟨rfl, by decide, by decide⟩

/-- **C3 (amended).** For every valid child index `i ≤ 0xffffffff`, a node
returned by `deriveChild(i)` has depth exactly one greater than the parent's —
except when the parent is a full node whose (non-empty) path has exactly six
slash-separated components, in which case the returned node's depth equals the
parent's depth (the source pops the last path component and decrements the new
depth). -/
theorem deriveChild_depth_characterization (c : Crypto) (i : Nat) :
    (∀ (nv : HDNodeVoidWallet) (w : HDNodeVoidWallet),
        nv.deriveChild c i = some w → w.depth = nv.depth + 1) ∧
    (∀ (nf : HDNodeWallet) (w : HDNodeWallet),
        nf.deriveChild c i = some w →
          w.depth = match nf.path with
            | none => nf.depth + 1
            | some p =>
              if p = [] then nf.depth + 1
              else if (splitSlash p).length = 6 then nf.depth else nf.depth + 1) := by
  constructor
  · intro nv w h
    by_cases hle : i ≤ 0xffffffff
    · simp only [HDNodeVoidWallet.deriveChild, ser_I, hle, if_true] at h
      by_cases hhard : HardenedBit ≤ i
      · simp [hhard] at h
      · simp only [hhard, if_false, ite_false] at h
        obtain rfl := (Option.some.inj h).symm
        rfl
    · simp [HDNodeVoidWallet.deriveChild, hle] at h
  · intro nf w h
    by_cases hle : i ≤ 0xffffffff
    · simp only [HDNodeWallet.deriveChild, ser_I, hle, if_true] at h
      by_cases hhard : HardenedBit ≤ i
      · simp only [hhard, if_true, ite_true] at h
        obtain rfl := (Option.some.inj h).symm
        rcases nf.path with _ | p
        · rfl
        · by_cases hp : p = []
          · simp [hp]
          · by_cases h6 : (splitSlash p).length = 6 <;> simp [hp, h6]
      · simp only [hhard, if_false, ite_false] at h
        obtain rfl := (Option.some.inj h).symm
        rcases nf.path with _ | p
        · rfl
        · by_cases hp : p = []
          · simp [hp]
          · by_cases h6 : (splitSlash p).length = 6 <;> simp [hp, h6]
    · simp [HDNodeWallet.deriveChild, hle] at h

/-- **C3 witness.** The amended depth rule evaluated on a concrete neutered
node and on the concrete six-component full node. -/
theorem deriveChild_depth_characterization_witness :
    (nVW.deriveChild cW 3).map HDNodeVoidWallet.depth = some (nVW.depth + 1) ∧
      (nW6.deriveChild cW 0).map HDNodeWallet.depth = some nW6.depth := by
  constructor
  · cases hw : nVW.deriveChild cW 3 with
    | none => exact absurd hw (by decide)
    | some w =>
      rw [Option.map_some']
      exact congrArg some ((deriveChild_depth_characterization cW 3).1 nVW w hw)
  · cases hw : nW6.deriveChild cW 0 with
    | none => exact absurd hw (by decide)
    | some w =>
      rw [Option.map_some', (deriveChild_depth_characterization cW 0).2 nW6 w hw]
      decide

/-- **C8.** If a shard's ready flag is never set, `waitShardReady` sleeps with
doubling delays `1, 2, 4, …, 256` (eight doublings) and then throws a timeout
error rather than waiting forever; if the flag is set, it returns without
error (and without sleeping). -/
theorem waitShardReady_timeout_backoff (readyMap : Shard → Bool) (shard : Shard) :
    (readyMap shard = false →
      WebSocketProvider.waitShardReady readyMap shard =
        (.error .timeout, [1, 2, 4, 8, 16, 32, 64, 128, 256])) ∧
    (readyMap shard = true →
      WebSocketProvider.waitShardReady readyMap shard = (.ok (), [])) := by
  constructor <;> intro h <;>
    simp only [WebSocketProvider.waitShardReady, h] <;>
    simp [waitShardReadyGo]

/-- **C8 witness.** Both outcomes evaluated at a concrete ready map (Cyprus1
never ready, Prime ready). -/
theorem waitShardReady_timeout_backoff_witness :
    WebSocketProvider.waitShardReady (fun s => s = Shard.Prime) Shard.Cyprus1 =
        (.error .timeout, [1, 2, 4, 8, 16, 32, 64, 128, 256]) ∧
      WebSocketProvider.waitShardReady (fun s => s = Shard.Prime) Shard.Prime =
        (.ok (), []) :=
  ⟨(waitShardReady_timeout_backoff _ Shard.Cyprus1).1 (by decide),
   (waitShardReady_timeout_backoff _ Shard.Prime).2 (by decide)⟩

/-- **C9.** `Wallet.fromPhrase` dispatches on the path's coin-type segment:
a path with fewer than three slash-separated segments fails fast; otherwise a
Quai wallet is built exactly when the segment parses to 994, a Qi wallet
exactly when it parses to 969, and anything else fails with an
unsupported-cointype error, constructing no wallet. -/
theorem fromPhrase_coinType_dispatch (phrase path : List Char) :
    ((splitSlash path).length < 3 →
        Wallet.fromPhrase phrase path = .error .incompletePath) ∧
    (3 ≤ (splitSlash path).length →
      (Wallet.fromPhrase phrase path = .ok .quai ↔
          parseIntJS (removeFirst apoChar ((splitSlash path).getD 2 [])) = some 994) ∧
      (Wallet.fromPhrase phrase path = .ok .qi ↔
          parseIntJS (removeFirst apoChar ((splitSlash path).getD 2 [])) = some 969) ∧
      (∀ ct, parseIntJS (removeFirst apoChar ((splitSlash path).getD 2 [])) = some ct →
          ct ≠ 994 → ct ≠ 969 →
          Wallet.fromPhrase phrase path = .error .unsupportedCoinType) ∧
      (parseIntJS (removeFirst apoChar ((splitSlash path).getD 2 [])) = none →
          Wallet.fromPhrase phrase path = .error .unsupportedCoinType)) := by
  constructor
  · intro h
    simp [Wallet.fromPhrase, h]
  · intro h
    have h3 : ¬ (splitSlash path).length < 3 := by omega
    refine ⟨?_, ?_, ?_, ?_⟩
    · constructor
      · intro hq
        simp only [Wallet.fromPhrase, h3, if_false, ite_false] at hq
        rcases hp : parseIntJS (removeFirst apoChar ((splitSlash path).getD 2 [])) with _ | ct
        · rw [hp] at hq; exact absurd hq (by simp)
        · rw [hp] at hq
          by_cases h994 : ct = 994
          · rw [h994]
          · by_cases h969 : ct = 969 <;> simp [h994, h969] at hq
      · intro hp
        simp only [List.getD, List.get?_eq_getElem?] at hp
        simp [Wallet.fromPhrase, h3, hp]
    · constructor
      · intro hq
        simp only [Wallet.fromPhrase, h3, if_false, ite_false] at hq
        rcases hp : parseIntJS (removeFirst apoChar ((splitSlash path).getD 2 [])) with _ | ct
        · rw [hp] at hq; exact absurd hq (by simp)
        · rw [hp] at hq
          by_cases h994 : ct = 994
          · simp [h994] at hq
          · by_cases h969 : ct = 969
            · rw [h969]
            · simp [h994, h969] at hq
      · intro hp
        simp only [List.getD, List.get?_eq_getElem?] at hp
        simp [Wallet.fromPhrase, h3, hp]
    · intro ct hp h994 h969
      simp only [List.getD, List.get?_eq_getElem?] at hp
      simp [Wallet.fromPhrase, h3, hp, h994, h969]
    · intro hp
      simp only [List.getD, List.get?_eq_getElem?] at hp
      simp [Wallet.fromPhrase, h3, hp]

/-- **C9 witness.** Dispatch evaluated on the concrete path `m/44'/994'/0'/0`
(Quai) and on the too-short path `m`. -/
theorem fromPhrase_coinType_dispatch_witness :
    Wallet.fromPhrase [] path994 = .ok .quai ∧
      Wallet.fromPhrase [] ['m'] = .error .incompletePath :=
  ⟨((fromPhrase_coinType_dispatch [] path994).2 (by decide)).1.mpr (by decide),
   (fromPhrase_coinType_dispatch [] ['m']).1 (by decide)⟩

/-- **C10.** `toShard` returns a `Shard` exactly for the 36 identifiers of the
nine zone-level shards (name, nickname, byte or shard string, resolving to
that zone's `Shard` value); every other string — including all identifiers of
the region-level entries and of the Prime entry, which `ShardData` does
contain — yields the `Invalid shard` error. -/
theorem toShard_zone_level_only (s : List Char) :
    (∀ z, toShard s = .ok z ↔ (s, z) ∈ zoneIdTable) ∧
    (∀ r ∈ regionPrimeIds, toShard r = .error .invalidShard) := by
  refine ⟨?_, by decide⟩
  by_cases hs : s ∈ allShardIds
  · simp only [allShardIds, List.mem_cons, List.not_mem_nil, or_false] at hs
    rcases hs with rfl | rfl | rfl | rfl | rfl | rfl | rfl | rfl | rfl | rfl | rfl | rfl | rfl | rfl | rfl | rfl | rfl | rfl | rfl | rfl | rfl | rfl | rfl | rfl | rfl | rfl | rfl | rfl | rfl | rfl | rfl | rfl | rfl | rfl | rfl | rfl | rfl | rfl | rfl | rfl | rfl | rfl | rfl | rfl | rfl | rfl | rfl | rfl | rfl | rfl | rfl <;> decide
  · intro z
    have hnone : ShardData.find? (fun it => it.name == s || it.byte == s ||
        it.nickname == s || it.shard == s) = none := by
      rw [List.find?_eq_none]
      intro e he hp
      apply hs
      fin_cases he <;>
        simp only [Bool.or_eq_true, beq_iff_eq] at hp <;>
        rcases hp with ((rfl | rfl) | rfl) | rfl <;> decide
    constructor
    · intro h
      rw [toShard, hnone] at h
      have hempty : shardFromBytes ((Option.map ShardEntry.byte
          (none : Option ShardEntry)).getD []) = .error .invalidShard := by decide
      rw [hempty] at h
      exact Except.noConfusion h
    · intro hmem
      exfalso
      apply hs
      have hsub : ∀ p ∈ zoneIdTable, p.1 ∈ allShardIds := by decide
      exact hsub (s, z) hmem

/-- **C10 witness.** Resolution evaluated at the nickname `cyprus1` (a zone
identifier) and at `Prime`. -/
theorem toShard_zone_level_only_witness :
    toShard (chars "cyprus1") = .ok .Cyprus1 ∧
      toShard (chars "Prime") = .error .invalidShard :=
  ⟨((toShard_zone_level_only (chars "cyprus1")).1 Shard.Cyprus1).mpr (by decide),
   (toShard_zone_level_only (chars "Prime")).2 (chars "Prime") (by decide)⟩

theorem _addAddress_ok_spec (env : QuaiEnv) (w : QuaiHDWallet)
    (account index : Nat) (info : NeuteredAddressInfo) (w' : QuaiHDWallet)
    (h : QuaiHDWallet._addAddress env w account index = (.ok info, w')) :
    w'.phrase = w.phrase ∧ info.account = account ∧ info.index = index ∧
    info.address = (env.derive w.phrase account index).1 ∧
    info.pubKey = (env.derive w.phrase account index).2 ∧
    env.getZoneForAddress (env.derive w.phrase account index).1 = some info.zone := by
  simp only [QuaiHDWallet._addAddress] at h
  split at h
  · exact absurd (congrArg Prod.fst h) (by simp)
  · split at h
    · exact absurd (congrArg Prod.fst h) (by simp)
    · next zone hzone =>
      split at h
      · exact absurd (congrArg Prod.fst h) (by simp)
      · have h1 := Except.ok.inj (congrArg Prod.fst h)
        have h2 := congrArg Prod.snd h
        obtain rfl := h1
        obtain rfl := h2
        exact ⟨rfl, rfl, rfl, rfl, rfl, hzone⟩

theorem importSerializedAddresses_ok_spec (env : QuaiEnv) :
    ∀ (l : List NeuteredAddressInfo) (w : QuaiHDWallet) (u : Unit) (w' : QuaiHDWallet),
      QuaiHDWallet.importSerializedAddresses env w l = (.ok u, w') →
      ∀ info ∈ l, matchesDerivation env w.phrase info := by
  intro l
  induction l with
  | nil => intro w u w' _ info hmem; exact absurd hmem (List.not_mem_nil info)
  | cons info rest ih =>
    intro w u w' h info' hmem
    rw [QuaiHDWallet.importSerializedAddresses] at h
    rcases hadd : QuaiHDWallet._addAddress env w info.account info.index with ⟨res, w1⟩
    rw [hadd] at h
    cases res with
    | error e => simp only [] at h; exact absurd (congrArg Prod.fst h) (by simp)
    | ok newInfo =>
      simp only [] at h
      obtain ⟨hph, hacc, hidx, haddr, hpub, hzone⟩ :=
        _addAddress_ok_spec env w info.account info.index newInfo w1 hadd
      by_cases haddrNe : info.address ≠ newInfo.address
      · rw [if_pos haddrNe] at h
        exact absurd (congrArg Prod.fst h) (by simp)
      · rw [if_neg haddrNe] at h
        by_cases hpubNe : info.pubKey ≠ newInfo.pubKey
        · rw [if_pos hpubNe] at h
          exact absurd (congrArg Prod.fst h) (by simp)
        · rw [if_neg hpubNe] at h
          by_cases hzoneNe : info.zone ≠ newInfo.zone
          · rw [if_pos hzoneNe] at h
            exact absurd (congrArg Prod.fst h) (by simp)
          · rw [if_neg hzoneNe] at h
            have haddrEq : info.address = newInfo.address := not_ne_iff.mp haddrNe
            have hpubEq : info.pubKey = newInfo.pubKey := not_ne_iff.mp hpubNe
            have hzoneEq : info.zone = newInfo.zone := not_ne_iff.mp hzoneNe
            rcases List.mem_cons.mp hmem with rfl | hmem2
            · exact ⟨by rw [haddrEq, haddr], by rw [hpubEq, hpub],
                by rw [hzoneEq, ← hzone]⟩
            · have := ih w1 u w' h info' hmem2
              rwa [hph] at this

/-- **C5.** `deserialize` returns a wallet only when every stored entry
matches its re-derivation from the phrase (address, public key and zone);
hence whenever any stored entry differs from its re-derivation, `deserialize`
fails, constructing no wallet instance. -/
theorem deserialize_revalidates_addresses (env : QuaiEnv)
    (s : SerializedQuaiHDWallet) :
    (∀ w, QuaiHDWallet.deserialize env s = .ok w →
      ∀ info ∈ s.addresses, matchesDerivation env s.phrase info) ∧
    ((∃ info ∈ s.addresses, ¬ matchesDerivation env s.phrase info) →
      ∃ e, QuaiHDWallet.deserialize env s = .error e) := by
  have hmain : ∀ w, QuaiHDWallet.deserialize env s = .ok w →
      ∀ info ∈ s.addresses, matchesDerivation env s.phrase info := by
    intro w h info hmem
    simp only [QuaiHDWallet.deserialize] at h
    split at h
    · exact Except.noConfusion h
    · rcases himp : QuaiHDWallet.importSerializedAddresses env
          { phrase := s.phrase, addresses := [] } s.addresses with ⟨res, w1⟩
      rw [himp] at h
      cases res with
      | error e => exact Except.noConfusion h
      | ok u =>
        exact importSerializedAddresses_ok_spec env s.addresses
          { phrase := s.phrase, addresses := [] } u w1 himp info hmem
  refine ⟨hmain, ?_⟩
  rintro ⟨info, hmem, hbad⟩
  cases hdes : QuaiHDWallet.deserialize env s with
  | ok w => exact absurd (hmain w hdes info hmem) hbad
  | error e => exact ⟨e, rfl⟩

/-- **C6.** Adding an address at an address index that is already used in the
wallet's address map rejects with the `already exists` error and returns the
address map unchanged (the check runs before any mutation; the source checks
the index against every stored entry). -/
theorem _addAddress_alreadyExists (env : QuaiEnv) (w : QuaiHDWallet)
    (account addressIndex : Nat)
    (h : ∃ p ∈ w.addresses, p.2.index = addressIndex) :
    QuaiHDWallet._addAddress env w account addressIndex =
      (.error (.addressAlreadyExists addressIndex), w) := by
  obtain ⟨p, hp, hidx⟩ := h
  have hany : w.addresses.any (fun p => p.2.index == addressIndex) = true :=
    List.any_eq_true.mpr ⟨p, hp, by simp [hidx]⟩
  simp [QuaiHDWallet._addAddress, hany]

/-- **C5 witness.** Deserializing `sW` succeeds, so by the theorem its single
stored entry matches its re-derivation. -/
theorem deserialize_revalidates_addresses_witness :
    matchesDerivation envW sW.phrase infoW :=
  (deserialize_revalidates_addresses envW sW).1 wExpected (by decide) infoW (by decide)

/-- **C6 witness.** Re-adding index 0 (already stored in `wExpected`, even
under a different account) rejects and leaves the map unchanged. -/
theorem _addAddress_alreadyExists_witness :
    QuaiHDWallet._addAddress envW wExpected 1 0 =
      (.error (.addressAlreadyExists 0), wExpected) :=
  _addAddress_alreadyExists envW wExpected 1 0 ⟨([0, 0], infoW), by decide, by decide⟩

set_option maxRecDepth 100000 in
/-- **C4 counterexample.** The claim states that `fromExtendedKey` fails —
constructing no node — whenever the checksum does not verify against the first
78 bytes.  But for `badEK` the decoded payload is 82 bytes long with an
invalid checksum (re-encoding the first 78 bytes does not reproduce the
string, which is exactly the source's checksum test), and `fromExtendedKey`
still returns a node: the `length === 82 || checksum` disjunction skips the
checksum entirely for 82-byte payloads. -/
theorem fromExtendedKey_checksum_counterexample :
    (natToBytes ((decodeBase58 badEK).getD 0)).length = 82 ∧
    encodeBase58Check cW ((natToBytes ((decodeBase58 badEK).getD 0)).take 78) ≠ badEK ∧
    HDNodeWallet.fromExtendedKey cW badEK = some (.full mBad) := by
  refine ⟨by decide, by decide, by decide⟩

/-- **C4 (amended).** `fromExtendedKey` returns a node exactly when the
string Base58-decodes, the guard `length = 82 OR re-encoding the first 78
bytes with its checksum reproduces the string` holds, and the 4-byte version
prefix is a recognized public prefix or the recognized private prefix with a
leading `0x00` key byte.  In particular the checksum is only consulted when
the decoded payload length is not 82: an 82-byte payload with a valid prefix
is accepted regardless of its checksum. -/
theorem fromExtendedKey_guard_characterization (c : Crypto) (ek : List Char) :
    (∃ m, HDNodeWallet.fromExtendedKey c ek = some m) ↔
      ∃ v, decodeBase58 ek = some v ∧
        ((natToBytes v).length = 82 ∨ encodeBase58Check c ((natToBytes v).take 78) = ek) ∧
        ((natToBytes v).take 4 = [0x04, 0x88, 0xB2, 0x1E] ∨
         (natToBytes v).take 4 = [0x04, 0x35, 0x87, 0xCF] ∨
         ((natToBytes v).take 4 = [0x04, 0x88, 0xAD, 0xE4] ∧
           ((((natToBytes v).drop 45).take 33).drop 0).headD 1 = 0)) := by
  constructor
  · rintro ⟨m, hm⟩
    rw [HDNodeWallet.fromExtendedKey] at hm
    cases hdec : decodeBase58 ek with
    | none => rw [hdec] at hm; exact Option.noConfusion hm
    | some v =>
      rw [hdec] at hm
      simp only [] at hm
      by_cases hguard : (natToBytes v).length = 82 ∨
          encodeBase58Check c ((natToBytes v).take 78) = ek
      · rw [if_pos hguard] at hm
        by_cases hpub : (natToBytes v).take 4 = [0x04, 0x88, 0xB2, 0x1E] ∨
            (natToBytes v).take 4 = [0x04, 0x35, 0x87, 0xCF]
        · refine ⟨v, rfl, hguard, ?_⟩
          rcases hpub with h | h
          · exact Or.inl h
          · exact Or.inr (Or.inl h)
        · rw [if_neg hpub] at hm
          by_cases hpriv : (natToBytes v).take 4 = [0x04, 0x88, 0xAD, 0xE4] ∧
              ((((natToBytes v).drop 45).take 33).drop 0).headD 1 = 0
          · exact ⟨v, rfl, hguard, Or.inr (Or.inr hpriv)⟩
          · rw [if_neg hpriv] at hm
            exact Option.noConfusion hm
      · rw [if_neg hguard] at hm
        exact Option.noConfusion hm
  · rintro ⟨v, hdec, hguard, hpre⟩
    rw [HDNodeWallet.fromExtendedKey, hdec]
    simp only []
    rw [if_pos hguard]
    rcases hpre with hpub | hpub | ⟨hpriv, hkey⟩
    · rw [if_pos (Or.inl hpub)]
      exact ⟨_, rfl⟩
    · rw [if_pos (Or.inr hpub)]
      exact ⟨_, rfl⟩
    · rw [if_neg (by rw [hpriv]; decide), if_pos ⟨hpriv, hkey⟩]
      exact ⟨_, rfl⟩

set_option maxRecDepth 100000 in
/-- **C4 witness.** The guard characterization applied to `badEK` (82-byte
payload, private prefix, zero lead key byte): a node is returned. -/
theorem fromExtendedKey_guard_characterization_witness :
    ∃ m, HDNodeWallet.fromExtendedKey cW badEK = some m :=
  (fromExtendedKey_guard_characterization cW badEK).mpr
    ⟨bytesToNat (badPayload ++ [1, 2, 3, 4]), by decide, by decide, by decide⟩

theorem decChars_digits (n : Nat) : ∀ ch ∈ decChars n, isDigitChar ch = true := by
  intro ch hch
  rw [decChars] at hch
  split at hch
  · simp only [List.mem_singleton] at hch
    subst hch
    decide
  · obtain ⟨d, hd, rfl⟩ := List.mem_map.mp hch
    have hdlt : d < 10 := natToDigits_lt 10 n (by omega) d hd
    exact (by decide : ∀ d : Fin 10, isDigitChar (Char.ofNat (48 + d.val)) = true) ⟨d, hdlt⟩

theorem digitChar_ne_slash (ch : Char) (h : isDigitChar ch = true) : ch ≠ slashChar := by
  intro heq
  rw [heq] at h
  exact absurd h (by decide)

theorem splitSlash_eq_single (cs : List Char) (h : ∀ ch ∈ cs, ch ≠ slashChar) :
    splitSlash cs = [cs] := by
  induction cs with
  | nil => rfl
  | cons c cs ih =>
    simp only [splitSlash]
    rw [if_neg (h c (List.mem_cons_self c cs)),
      ih (fun ch hch => h ch (List.mem_cons_of_mem c hch))]

theorem parseDecimal_foldl (ds : List Nat) (hds : ∀ d ∈ ds, d < 10) :
    ∀ acc, (ds.map (fun d => Char.ofNat (48 + d))).foldl
        (fun a ch => a * 10 + (ch.toNat - 48)) acc =
      ds.foldl (fun a d => a * 10 + d) acc := by
  induction ds with
  | nil => intro acc; rfl
  | cons d ds ih =>
    intro acc
    have hd : d < 10 := hds d (List.mem_cons_self _ _)
    simp only [List.map_cons, List.foldl_cons]
    rw [(by exact (by decide :
        ∀ d : Fin 10, (Char.ofNat (48 + d.val)).toNat - 48 = d.val) ⟨d, hd⟩ :
      (Char.ofNat (48 + d)).toNat - 48 = d)]
    exact ih (fun x hx => hds x (List.mem_cons_of_mem _ hx)) _

theorem parseDecimal_decChars (n : Nat) : parseDecimal (decChars n) = some n := by
  rw [decChars]
  by_cases hn : n = 0
  · subst hn; decide
  · rw [if_neg hn, parseDecimal]
    have hne : (natToDigits 10 n).map (fun d => Char.ofNat (48 + d)) ≠ [] := by
      intro hmap
      apply hn
      have hnil : natToDigits 10 n = [] := List.map_eq_nil_iff.mp hmap
      have := digitsVal_natToDigits 10 n (by omega)
      rw [hnil] at this
      simpa [digitsVal] using this.symm
    have hall : ((natToDigits 10 n).map (fun d => Char.ofNat (48 + d))).all
        isDigitChar = true := by
      rw [List.all_eq_true]
      intro ch hch
      obtain ⟨d, hd, rfl⟩ := List.mem_map.mp hch
      have hdlt : d < 10 := natToDigits_lt 10 n (by omega) d hd
      exact (by decide : ∀ d : Fin 10, isDigitChar (Char.ofNat (48 + d.val)) = true) ⟨d, hdlt⟩
    rw [if_pos ⟨hne, hall⟩,
      parseDecimal_foldl (natToDigits 10 n) (natToDigits_lt 10 n (by omega)) 0]
    exact congrArg some (digitsVal_natToDigits 10 n (by omega))

theorem parsePathComponent_decChars (n : Nat) :
    parsePathComponent (decChars n) = some n := by
  rw [parsePathComponent, if_neg ?hlast]
  · exact parseDecimal_decChars n
  case hlast =>
    intro hlast
    have hx : apoChar ∈ (decChars n).getLast? := Option.mem_def.mpr hlast
    obtain ⟨hne, heq⟩ := List.mem_getLast?_eq_getLast hx
    have hmem : apoChar ∈ decChars n := by rw [heq]; exact List.getLast_mem hne
    have := decChars_digits n apoChar hmem
    exact absurd this (by decide)

theorem derivePath_decChars (c : Crypto) (node : HDNodeWallet) (j : Nat) :
    derivePath c node (decChars j) = node.deriveChild c j := by
  have hsplit : splitSlash (decChars j) = [decChars j] :=
    splitSlash_eq_single _ (fun ch hch => digitChar_ne_slash ch (decChars_digits j ch hch))
  have hm : decChars j ≠ ['m'] := by
    intro h
    have hmem : ('m' : Char) ∈ decChars j := by rw [h]; exact List.mem_singleton_self _
    have := decChars_digits j 'm' hmem
    exact absurd this (by decide)
  rw [derivePath, hsplit]
  simp only []
  rw [if_neg hm, derivePathGo, parsePathComponent_decChars j]
  simp only []
  cases hd : node.deriveChild c j with
  | none => simp only [hd]
  | some w => simp only [hd, derivePathGo]

theorem deriveChild_total (c : Crypto) (n : HDNodeWallet) (j : Nat)
    (hj : j ≤ 0xffffffff) : ∃ w, n.deriveChild c j = some w := by
  simp only [HDNodeWallet.deriveChild, ser_I, hj, if_true]
  by_cases hh : HardenedBit ≤ j
  · simp only [hh, if_true, ite_true]
    exact ⟨_, rfl⟩
  · simp only [hh, if_false, ite_false]
    exact ⟨_, rfl⟩

theorem deriveAddressLoop_first_match (c : Crypto) (env : ZoneEnv)
    (n : HDNodeWallet) (shard : ShardEntry) (M : Nat)
    (hderive : ∀ j, j ≤ M → (derivePath c n (decChars j)).isSome = true)
    (hno : ∀ j, j < M → loopCond c env n shard j = false)
    (hM : loopCond c env n shard M = true) :
    ∀ fuel a, a ≤ M → M - a < fuel →
      ∃ w, derivePath c n (decChars M) = some w ∧
        deriveAddressLoop c env n shard fuel a 1 = some (.ok w) := by
  intro fuel
  induction fuel with
  | zero => intro a _ hfa; omega
  | succ fuel ih =>
    intro a ha hfa
    obtain ⟨wa, hwa⟩ := Option.isSome_iff_exists.mp (hderive a ha)
    by_cases haM : a = M
    · subst haM
      refine ⟨wa, hwa, ?_⟩
      have hcond : ((env.getShardForAddress (wa.address c) == some shard) &&
          ((wa.coinType == some 969) == env.isUTXOAddress (wa.address c))) = true := by
        have h0 := hM
        rw [loopCond, hwa] at h0
        exact h0
      simp only [deriveAddressLoop, hwa]
      rw [hcond]
      simp
    · have haM' : a < M := lt_of_le_of_ne ha haM
      have hcond : ((env.getShardForAddress (wa.address c) == some shard) &&
          ((wa.coinType == some 969) == env.isUTXOAddress (wa.address c))) = false := by
        have h0 := hno a haM'
        rw [loopCond, hwa] at h0
        exact h0
      obtain ⟨w, hw1, hw2⟩ := ih (a + 1) (by omega) (by omega)
      refine ⟨w, hw1, ?_⟩
      simp only [deriveAddressLoop, hwa]
      rw [hcond]
      simpa using hw2

theorem deriveAddress_zone_reduces (c : Crypto) (env : ZoneEnv) (n : HDNodeWallet)
    (p zone : List Char) (shard : ShardEntry) (index fuel : Nat)
    (hp : n.path = some p) (hpne : p ≠ [])
    (hfind : ShardData.find? (fun sh =>
        toLowerChars sh.name == toLowerChars zone ||
        toLowerChars sh.nickname == toLowerChars zone ||
        toLowerChars sh.byte == toLowerChars zone) = some shard) :
    HDNodeWallet.deriveAddress c env n index (some zone) fuel =
      deriveAddressLoop c env n shard fuel 0 (index + 1) := by
  simp only [HDNodeWallet.deriveAddress, hp, hfind]
  rw [if_neg hpne]

/-- **C7 (amended).** The zone-aware search has no attempt cap: whenever the
requested zone's first matching derived address sits at index `M` — however
large, in particular far beyond any bounded search such as the spec's 10,000
attempts — `deriveAddress` keeps deriving and returns that address instead of
failing; a bounded-attempts failure does not exist in the source (the loop
only stops on a match or when the address index finally leaves the valid u32
range, after ~2^32 derivations, with an invalid-index error). -/
theorem deriveAddress_no_attempt_cap (c : Crypto) (env : ZoneEnv)
    (n : HDNodeWallet) (p zone : List Char) (shard : ShardEntry) (M fuel : Nat)
    (hp : n.path = some p) (hpne : p ≠ [])
    (hfind : ShardData.find? (fun sh =>
        toLowerChars sh.name == toLowerChars zone ||
        toLowerChars sh.nickname == toLowerChars zone ||
        toLowerChars sh.byte == toLowerChars zone) = some shard)
    (hderive : ∀ j, j ≤ M → (derivePath c n (decChars j)).isSome = true)
    (hno : ∀ j, j < M → loopCond c env n shard j = false)
    (hM : loopCond c env n shard M = true) (hfuel : M < fuel) :
    ∃ w, derivePath c n (decChars M) = some w ∧
      HDNodeWallet.deriveAddress c env n 0 (some zone) fuel = some (.ok w) := by
  obtain ⟨w, hw1, hw2⟩ := deriveAddressLoop_first_match c env n shard M
    hderive hno hM fuel 0 (Nat.zero_le M) (by omega)
  refine ⟨w, hw1, ?_⟩
  rw [deriveAddress_zone_reduces c env n p zone shard 0 fuel hp hpne hfind]
  exact hw2

theorem deriveChild_nLoop_cW2 (j : Nat) (hj : j ≤ 0xffffffff) :
    ∃ w, nLoop.deriveChild cW2 j = some w ∧
      w.address cW2 = natToBytesPad j 32 ∧ w.coinType = none ∧ w.index = j := by
  have hjlt : j < 256 ^ 4 := by
    calc j ≤ 0xffffffff := hj
    _ < 256 ^ 4 := by norm_num
  have hpadlen : (natToBytesPad j 4).length = 4 := natToBytesPad_length j 4 hjlt
  have hIL : ∀ sk : List Nat, sk.length = 33 →
      bytesToNat ((cW2.hmac512 nLoop.chainCode (sk ++ natToBytesPad j 4)).take 32) = j := by
    intro sk hsk
    show bytesToNat ((List.replicate 28 0 ++ (sk ++ natToBytesPad j 4).drop 33).take 32) = j
    rw [List.drop_left' hsk]
    have hlen : (List.replicate 28 (0 : Nat) ++ natToBytesPad j 4).length = 32 := by
      simp [hpadlen]
    rw [show (32 : Nat) = (List.replicate 28 (0 : Nat) ++ natToBytesPad j 4).length
        from hlen.symm,
      List.take_length, bytesToNat, digitsVal_replicate_zero_append]
    exact bytesToNat_natToBytesPad j 4
  have hzero : bytesToNat nLoop.privateKey = 0 := by decide
  have hjN : j % N = j := Nat.mod_eq_of_lt (lt_of_le_of_lt hj (by decide))
  simp only [HDNodeWallet.deriveChild, ser_I, hj, if_true]
  by_cases hh : HardenedBit ≤ j
  · simp only [hh, if_true, ite_true]
    refine ⟨_, rfl, ?_, rfl, rfl⟩
    show cW2.computeAddress (cW2.compressedPublicKey _) = _
    show (9 :: natToBytesPad ((bytesToNat ((cW2.hmac512 nLoop.chainCode
        (([0x00] ++ nLoop.privateKey) ++ natToBytesPad j 4)).take 32) +
        bytesToNat nLoop.privateKey) % N) 32).drop 1 = _
    rw [hIL ([0x00] ++ nLoop.privateKey) (by decide), hzero, List.drop_one,
      List.tail_cons]
    rw [Nat.add_zero, hjN]
  · simp only [hh, if_false, ite_false]
    refine ⟨_, rfl, ?_, rfl, rfl⟩
    show (9 :: natToBytesPad ((bytesToNat ((cW2.hmac512 nLoop.chainCode
        (nLoop.publicKey cW2 ++ natToBytesPad j 4)).take 32) +
        bytesToNat nLoop.privateKey) % N) 32).drop 1 = _
    rw [hIL (nLoop.publicKey cW2) (by decide), hzero, List.drop_one, List.tail_cons]
    rw [Nat.add_zero, hjN]

theorem loopCond_zEnvT (M j : Nat) (hj : j ≤ 0xffffffff) :
    loopCond cW2 (zEnvT M) nLoop cyprus1Entry j = decide (j = M) := by
  obtain ⟨w, hw, haddr, hct, _⟩ := deriveChild_nLoop_cW2 j hj
  rw [loopCond, derivePath_decChars, hw]
  simp only [haddr, hct]
  by_cases hjM : j = M
  · subst hjM
    simp [zEnvT]
  · have hne : natToBytesPad j 32 ≠ natToBytesPad M 32 := by
      intro he
      apply hjM
      have := congrArg bytesToNat he
      rwa [bytesToNat_natToBytesPad, bytesToNat_natToBytesPad] at this
    simp [zEnvT, hne, hjM]

set_option maxRecDepth 100000 in
theorem deriveChild_nLoop_10000 : nLoop.deriveChild cW2 10000 = some wTarget := by
  decide

/-- **C7 counterexample.** Claim C7 states that when a requested zone has zero
matching derived addresses within a bounded number of attempts (the spec's
example bound is 10,000), the search fails with an error.  Here the zone
`cyprus1` has zero matches among address indices 0..9999, yet `deriveAddress`
does not fail: it keeps deriving and succeeds at index 10000 (the loop shown
with ample fuel; the source loop is the same computation unbounded). -/
theorem deriveAddress_counterexample :
    ((List.range 10000).all
      (fun j => !(loopCond cW2 (zEnvT 10000) nLoop cyprus1Entry j))) = true ∧
    HDNodeWallet.deriveAddress cW2 (zEnvT 10000) nLoop 0
        (some (chars "cyprus1")) 10002 = some (.ok wTarget) ∧
    wTarget.index = 10000 := by
  have hall : ∀ j, j < 10000 → loopCond cW2 (zEnvT 10000) nLoop cyprus1Entry j = false := by
    intro j hj
    rw [loopCond_zEnvT 10000 j (by omega)]
    simp [Nat.ne_of_lt hj]
  refine ⟨?_, ?_, rfl⟩
  · rw [List.all_eq_true]
    intro j hj
    rw [hall j (List.mem_range.mp hj)]
    rfl
  · obtain ⟨w, hw1, hw2⟩ := deriveAddressLoop_first_match cW2 (zEnvT 10000) nLoop
      cyprus1Entry 10000
      (fun j hj => by
        obtain ⟨w, hw, _, _, _⟩ := deriveChild_nLoop_cW2 j (by omega)
        rw [derivePath_decChars, hw]
        rfl)
      hall
      (by rw [loopCond_zEnvT 10000 10000 (by omega)]; simp)
      10002 0 (by omega) (by omega)
    rw [derivePath_decChars, deriveChild_nLoop_10000] at hw1
    obtain rfl := Option.some.inj hw1
    rw [deriveAddress_zone_reduces cW2 (zEnvT 10000) nLoop ['m'] (chars "cyprus1")
      cyprus1Entry 0 10002 rfl (by decide) (by decide)]
    exact hw2

/-- **C7 witness.** The amended no-cap theorem evaluated with the first match
at index 2. -/
theorem deriveAddress_no_attempt_cap_witness :
    ∃ w, derivePath cW2 nLoop (decChars 2) = some w ∧
      HDNodeWallet.deriveAddress cW2 (zEnvT 2) nLoop 0
        (some (chars "cyprus1")) 4 = some (.ok w) :=
  deriveAddress_no_attempt_cap cW2 (zEnvT 2) nLoop ['m'] (chars "cyprus1")
    cyprus1Entry 2 4 rfl (by decide) (by decide)
    (fun j hj => by
      obtain ⟨w, hw, _, _, _⟩ := deriveChild_nLoop_cW2 j (by omega)
      rw [derivePath_decChars, hw]
      rfl)
    (fun j hj => by
      rw [loopCond_zEnvT 2 j (by omega)]
      simp [Nat.ne_of_lt hj])
    (by rw [loopCond_zEnvT 2 2 (by omega)]; simp)
    (by omega)

end Quais
